import Mathlib

/-!
Verification development for `lib/my_env.py`: environment bootstrap utilities
(config loading, log initialization, path validation/sanitization, JSON
structure dumping, loop progress reporting).

The Python code is shallowly embedded:
  * The filesystem is an explicit state (`FS`): an association list of file
    paths to contents, a list of existing directories, and the log record.
  * `pathvalidate.validate_filename` / `sanitize_filename` / `validate_filepath`
    with `platform='auto'` are modelled for the POSIX platform that `auto`
    detects where this code runs: the invalid filename characters are `/` and
    NUL, the reserved names are `.` and `..`, the length limit is 255;
    sanitization removes invalid characters (replacement text is empty),
    appends `_` to a reserved result and truncates to the length limit.
  * `json.dumps(struct, ensure_ascii=False, indent=2, sort_keys=...)` is
    modelled by `serVal` over the Python value type `PyVal` (numbers are
    modelled as integers). `sort_keys=True` sorting every mapping at
    serialization time is modelled by pre-sorting with `sortKeysRec`.
  * Exceptions are explicit: state-mutating operations return the state
    together with `Option PyError` (`some e` = the exception `e` propagates
    to the caller, with all side effects up to that point kept); pure
    fallible operations return `Except PyError`.
  * `open(path, 'w')` is modelled as a total update of the file map: the
    claims about `get_valid_path` assume the parent directory is valid, per
    the contract of that function.
-/

namespace MyEnv

/-! ## Characters and small string utilities -/

def slashChar : Char := '/'

def nlChar : Char := '\n'

/-- The start of a path string is a slash (`os.path.join` absolute-part rule). -/
def startsWithSlash (s : String) : Bool :=
  match s.toList with
  | c :: _ => c = slashChar
  | [] => false

def endsWithSlash (s : String) : Bool :=
  match s.toList.getLast? with
  | some c => c = slashChar
  | none => false

/-- `os.path.join(a, b)` for one path component `b`. -/
def joinPath (a b : String) : String :=
  if startsWithSlash b then b
  else if a == "" then b
  else if endsWithSlash a then a ++ b
  else a ++ "/" ++ b

/-- `os.path.dirname(p)`: everything before the last slash, with trailing
slashes stripped unless the result consists of slashes only. -/
def dirname (p : String) : String :=
  let cs := p.toList
  let pre := (cs.reverse.dropWhile (fun c => !(c = slashChar))).reverse
  if pre.all (fun c => c = slashChar) then String.mk pre
  else String.mk ((pre.reverse.dropWhile (fun c => c = slashChar)).reverse)

/-- The tail component of `os.path.split(p)`. -/
def basename (p : String) : String :=
  String.mk ((p.toList.reverse.takeWhile (fun c => !(c = slashChar))).reverse)

/-- The root part of `os.path.splitext`: drops the extension after the last
dot, except when every character before that dot is a dot (so a leading-dot
name like `.bashrc` keeps its name). -/
def splitextRoot (p : String) : String :=
  let cs := p.toList
  let revAfter := cs.reverse.takeWhile (fun c => !(c = '.'))
  if revAfter.length = cs.length then p
  else
    let root := cs.take (cs.length - revAfter.length - 1)
    if root.all (fun c => c = '.') then p else String.mk root

/-- `get_modulename`: strip directory and extension from the calling script. -/
def get_modulename (scriptname : String) : String :=
  splitextRoot (basename scriptname)

/-! ## Platform filename rules (model of `pathvalidate`, POSIX platform) -/

def isInvalidFilenameChar (c : Char) : Bool :=
  c = slashChar || c.toNat = 0

def containsInvalidChar (s : String) : Bool :=
  s.toList.any isInvalidFilenameChar

def reservedNames : List String := [".", ".."]

/-- `pathvalidate.validate_filename(fn, platform='auto')` succeeds. -/
def validate_filename (fn : String) : Bool :=
  !(fn == "") && decide (fn.length ≤ 255)
    && !(containsInvalidChar fn) && !(reservedNames.contains fn)

/-- `pathvalidate.sanitize_filename(fn)`: remove invalid characters, fix a
reserved result with a trailing underscore, truncate to the length limit. -/
def sanitize_filename (fn : String) : String :=
  let stripped := String.mk (fn.toList.filter (fun c => !(isInvalidFilenameChar c)))
  let fixed := if reservedNames.contains stripped then stripped ++ "_" else stripped
  String.mk (fixed.toList.take 255)

def isInvalidPathChar (c : Char) : Bool := c.toNat = 0

/-- `pathvalidate.validate_filepath(p, platform='auto')` succeeds. -/
def validate_filepath (p : String) : Bool :=
  !(p == "") && decide (p.length ≤ 4096) && !(p.toList.any isInvalidPathChar)

/-! ## Filesystem and log state -/

inductive LogLevel where
  | debug : LogLevel
  | info : LogLevel
  | critical : LogLevel
deriving DecidableEq, Repr

/-- Python exceptions that the embedded functions can raise. -/
inductive PyError where
  | validationError : PyError
  | fileNotFoundError : PyError
  | typeError : PyError
  | attributeErrorNone : PyError
  | typeErrorNonePath : PyError
  | parseError : PyError
deriving DecidableEq, Repr

structure FS where
  files : List (String × String)
  dirs : List String
  logs : List (LogLevel × String)
deriving DecidableEq, Repr

def lookupFile : List (String × String) → String → Option String
  | [], _ => none
  | (q, c) :: rest, p => if q = p then some c else lookupFile rest p

def setFile : List (String × String) → String → String → List (String × String)
  | [], p, c => [(p, c)]
  | (q, d) :: rest, p, c => if q = p then (p, c) :: rest else (q, d) :: setFile rest p c

def FS.isfile (fs : FS) (p : String) : Bool :=
  (lookupFile fs.files p).isSome

def FS.isdir (fs : FS) (p : String) : Bool :=
  fs.dirs.contains p

def FS.writeFile (fs : FS) (p c : String) : FS :=
  { fs with files := setFile fs.files p c }

def FS.record (fs : FS) (lvl : LogLevel) (msg : String) : FS :=
  { fs with logs := (lvl, msg) :: fs.logs }

/-- `os.mkdir(p)`: non-recursive; raises `FileNotFoundError` when the parent
directory does not exist. -/
def FS.mkdir (fs : FS) (p : String) : FS × Option PyError :=
  if fs.dirs.contains (dirname p) then ({ fs with dirs := p :: fs.dirs }, none)
  else (fs, some .fileNotFoundError)

/-! ## `get_valid_path` -/

def changedSuffix : String := "_changed.txt"

def changeMsg (old new : String) : String :=
  "Name '" ++ old ++ "' changed to '" ++ new ++ "'"

/-- `get_valid_path(parent, fn)`: join after validating `fn` as a filename;
on validation failure sanitize, and record a marker file
`<sanitized>_changed.txt` in `parent` on the first occurrence. -/
def get_valid_path (fs : FS) (parent fn : String) : FS × String :=
  if validate_filename fn then (fs, joinPath parent fn)
  else
    let attrib_fn := fn
    let fn2 := sanitize_filename fn
    let fs1 := fs.record .info ("Need to sanitize stream " ++ attrib_fn ++ " to " ++ fn2)
    let marker := joinPath parent (fn2 ++ changedSuffix)
    if fs1.isfile marker then (fs1, joinPath parent fn2)
    else
      let msg := changeMsg attrib_fn fn2
      ((fs1.record .info msg).writeFile marker msg, joinPath parent fn2)

/-! ## Python values and `json.dumps` (ensure_ascii=False, indent=2) -/

/-- A Python value handed to `json.dumps`: JSON-representable constructors
plus `other` for a non-serializable object (numbers modelled as integers). -/
inductive PyVal where
  | jnull : PyVal
  | jbool (b : Bool) : PyVal
  | jint (i : Int) : PyVal
  | jstr (s : String) : PyVal
  | jlist (xs : List PyVal) : PyVal
  | jdict (es : List (String × PyVal)) : PyVal
  | other (tag : String) : PyVal

mutual
def noOther : PyVal → Bool
  | .jlist xs => noOtherList xs
  | .jdict es => noOtherEntries es
  | .other _ => false
  | _ => true
def noOtherList : List PyVal → Bool
  | [] => true
  | x :: xs => noOther x && noOtherList xs
def noOtherEntries : List (String × PyVal) → Bool
  | [] => true
  | (_, v) :: es => noOther v && noOtherEntries es
end

def digitChar : Nat → Char
  | 0 => '0'
  | 1 => '1'
  | 2 => '2'
  | 3 => '3'
  | 4 => '4'
  | 5 => '5'
  | 6 => '6'
  | 7 => '7'
  | 8 => '8'
  | 9 => '9'
  | _ => '0'

def hexDigitChar : Nat → Char
  | 0 => '0'
  | 1 => '1'
  | 2 => '2'
  | 3 => '3'
  | 4 => '4'
  | 5 => '5'
  | 6 => '6'
  | 7 => '7'
  | 8 => '8'
  | 9 => '9'
  | 10 => 'a'
  | 11 => 'b'
  | 12 => 'c'
  | 13 => 'd'
  | 14 => 'e'
  | 15 => 'f'
  | _ => '0'

/-- Decimal digits of `n`, most significant first (Python `str` of an int ≥ 0). -/
def natChars (n : Nat) : List Char :=
  if _h : n < 10 then [digitChar n]
  else natChars (n / 10) ++ [digitChar (n % 10)]
decreasing_by exact Nat.div_lt_self (by omega) (by omega)

/-- Python `str` of an int, as emitted by `json.dumps`. -/
def intChars (i : Int) : List Char :=
  if i < 0 then '-' :: natChars i.natAbs else natChars i.natAbs

/-- One character of a JSON string as `json.dumps(..., ensure_ascii=False)`
emits it: named short escapes, `\u00xx` for the remaining control characters,
everything else (non-ASCII included) literally. -/
def escChar (c : Char) : List Char :=
  if c = '"' then ['\\', '"']
  else if c = '\\' then ['\\', '\\']
  else if c = '\n' then ['\\', 'n']
  else if c = '\t' then ['\\', 't']
  else if c = '\r' then ['\\', 'r']
  else if c = Char.ofNat 8 then ['\\', 'b']
  else if c = Char.ofNat 12 then ['\\', 'f']
  else if c.toNat < 32 then
    ['\\', 'u', '0', '0', hexDigitChar (c.toNat / 16), hexDigitChar (c.toNat % 16)]
  else [c]

def escString : List Char → List Char
  | [] => []
  | c :: cs => escChar c ++ escString cs

def indentChars (k : Nat) : List Char := List.replicate k ' '

mutual
/-- Serialize a value at current indentation `k`, following
`json.dumps(v, ensure_ascii=False, indent=2)`; `none` models the `TypeError`
raised on a non-serializable object. -/
def serVal : PyVal → Nat → Option (List Char)
  | .jnull, _ => some ['n', 'u', 'l', 'l']
  | .jbool true, _ => some ['t', 'r', 'u', 'e']
  | .jbool false, _ => some ['f', 'a', 'l', 's', 'e']
  | .jint i, _ => some (intChars i)
  | .jstr s, _ => some ('"' :: escString s.toList ++ ['"'])
  | .jlist [], _ => some ['[', ']']
  | .jlist (x :: xs), k =>
    match serItems (x :: xs) (k + 2) with
    | some body => some ('[' :: nlChar :: body ++ nlChar :: indentChars k ++ [']'])
    | none => none
  | .jdict [], _ => some ['{', '}']
  | .jdict (e :: es), k =>
    match serEntries (e :: es) (k + 2) with
    | some body => some ('{' :: nlChar :: body ++ nlChar :: indentChars k ++ ['}'])
    | none => none
  | .other _, _ => none
/-- Array items at indentation `k`, separated by `,\n`, each prefixed with
its indentation. -/
def serItems : List PyVal → Nat → Option (List Char)
  | [], _ => some []
  | [x], k =>
    match serVal x k with
    | some sx => some (indentChars k ++ sx)
    | none => none
  | x :: y :: ys, k =>
    match serVal x k, serItems (y :: ys) k with
    | some sx, some rest => some (indentChars k ++ sx ++ ',' :: nlChar :: rest)
    | _, _ => none
/-- Object entries at indentation `k`: `"key": value`, separated by `,\n`. -/
def serEntries : List (String × PyVal) → Nat → Option (List Char)
  | [], _ => some []
  | [(key, v)], k =>
    match serVal v k with
    | some sv => some (indentChars k ++ '"' :: escString key.toList ++ '"' :: ':' :: ' ' :: sv)
    | none => none
  | (key, v) :: e :: es, k =>
    match serVal v k, serEntries (e :: es) k with
    | some sv, some rest =>
      some (indentChars k ++ '"' :: escString key.toList ++ '"' :: ':' :: ' ' :: sv
        ++ ',' :: nlChar :: rest)
    | _, _ => none
end

/-- Comparison on keys used by `sort_keys=True` (Python string `<`,
lexicographic on code points). -/
def strLebAux : List Char → List Char → Bool
  | [], _ => true
  | _ :: _, [] => false
  | a :: as, b :: bs => if a = b then strLebAux as bs else decide (a.toNat < b.toNat)

def entryLeb (p q : String × PyVal) : Bool :=
  strLebAux p.1.toList q.1.toList

mutual
/-- Sort every mapping of the value by key: `json.dumps(..., sort_keys=True)`
sorts the items of each dict at serialization time, which is equivalent to
serializing this pre-sorted value in order. -/
def sortKeysRec : PyVal → PyVal
  | .jlist xs => .jlist (sortKeysList xs)
  | .jdict es => .jdict ((sortKeysEntries es).mergeSort entryLeb)
  | v => v
def sortKeysList : List PyVal → List PyVal
  | [] => []
  | x :: xs => sortKeysRec x :: sortKeysList xs
def sortKeysEntries : List (String × PyVal) → List (String × PyVal)
  | [] => []
  | (k, v) :: es => (k, sortKeysRec v) :: sortKeysEntries es
end

/-- `json.dumps(struct, ensure_ascii=False, indent=2, sort_keys=sort_keys)`. -/
def json_dumps (struct : PyVal) (sort_keys : Bool) : Except PyError String :=
  match serVal (if sort_keys then sortKeysRec struct else struct) 0 with
  | some cs => .ok (String.mk cs)
  | none => .error .typeError

/-! ## A JSON parser (to state the round-trip property) -/

def isWsChar (c : Char) : Bool :=
  c = ' ' || c = '\n' || c = '\t' || c = '\r'

def skipWs : List Char → List Char
  | [] => []
  | c :: cs => if isWsChar c then skipWs cs else c :: cs

def isDigitChar (c : Char) : Bool :=
  48 ≤ c.toNat && c.toNat ≤ 57

def takeDigits : List Char → List Char × List Char
  | [] => ([], [])
  | c :: cs =>
    if isDigitChar c then
      let p := takeDigits cs
      (c :: p.1, p.2)
    else ([], c :: cs)

def digitStep (acc : Nat) (c : Char) : Nat := acc * 10 + (c.toNat - 48)

def digitsToNat (ds : List Char) : Nat := ds.foldl digitStep 0

def parseNat (cs : List Char) : Option (Nat × List Char) :=
  match takeDigits cs with
  | ([], _) => none
  | (ds, rest) => some (digitsToNat ds, rest)

def hexVal (c : Char) : Nat :=
  if 48 ≤ c.toNat && c.toNat ≤ 57 then c.toNat - 48
  else if 97 ≤ c.toNat && c.toNat ≤ 102 then c.toNat - 87
  else 0

def isHexDigit (c : Char) : Bool :=
  (48 ≤ c.toNat && c.toNat ≤ 57) || (97 ≤ c.toNat && c.toNat ≤ 102)

def unescChar : Char → Option Char
  | 'n' => some '\n'
  | 't' => some '\t'
  | 'r' => some '\r'
  | 'b' => some (Char.ofNat 8)
  | 'f' => some (Char.ofNat 12)
  | '"' => some '"'
  | '\\' => some '\\'
  | '/' => some '/'
  | _ => none

mutual
/-- Body of a JSON string (after the opening quote), accumulator reversed. -/
def parseStrAux : List Char → List Char → Option (String × List Char)
  | _, [] => none
  | acc, c :: rest =>
    if c = '"' then some (String.mk acc.reverse, rest)
    else if c = '\\' then parseEscSeq acc rest
    else parseStrAux (c :: acc) rest
termination_by _ cs => cs.length
/-- The remainder of an escape sequence, after the backslash. -/
def parseEscSeq : List Char → List Char → Option (String × List Char)
  | _, [] => none
  | acc, e :: rest =>
    if e = 'u' then parseHex4 acc rest
    else
      match unescChar e with
      | some u => parseStrAux (u :: acc) rest
      | none => none
termination_by _ cs => cs.length
/-- Four hex digits of a `\uXXXX` escape. -/
def parseHex4 : List Char → List Char → Option (String × List Char)
  | acc, a :: b :: c2 :: d :: rest2 =>
    if isHexDigit a && isHexDigit b && isHexDigit c2 && isHexDigit d then
      parseStrAux
        (Char.ofNat (((hexVal a * 16 + hexVal b) * 16 + hexVal c2) * 16 + hexVal d) :: acc)
        rest2
    else none
  | _, _ => none
termination_by _ cs => cs.length
end

mutual
/-- Recursive-descent JSON value parser (fuel-indexed). -/
def parseVal : Nat → List Char → Option (PyVal × List Char)
  | 0, _ => none
  | fuel + 1, cs =>
    match skipWs cs with
    | [] => none
    | c :: rest =>
      if c = 'n' then
        match rest with
        | 'u' :: 'l' :: 'l' :: r => some (.jnull, r)
        | _ => none
      else if c = 't' then
        match rest with
        | 'r' :: 'u' :: 'e' :: r => some (.jbool true, r)
        | _ => none
      else if c = 'f' then
        match rest with
        | 'a' :: 'l' :: 's' :: 'e' :: r => some (.jbool false, r)
        | _ => none
      else if c = '"' then
        match parseStrAux [] rest with
        | some (s, r) => some (.jstr s, r)
        | none => none
      else if c = '[' then
        match skipWs rest with
        | [] => none
        | d :: rest2 =>
          if d = ']' then some (.jlist [], rest2)
          else
            match parseItems fuel (d :: rest2) with
            | some (vs, r) => some (.jlist vs, r)
            | none => none
      else if c = '{' then
        match skipWs rest with
        | [] => none
        | d :: rest2 =>
          if d = '}' then some (.jdict [], rest2)
          else
            match parseEntries fuel (d :: rest2) with
            | some (es, r) => some (.jdict es, r)
            | none => none
      else if c = '-' then
        match parseNat rest with
        | some (m, r) => some (.jint (-(m : Int)), r)
        | none => none
      else if isDigitChar c then
        match parseNat (c :: rest) with
        | some (m, r) => some (.jint (m : Int), r)
        | none => none
      else none
/-- Items of a non-empty JSON array, consuming the closing bracket. -/
def parseItems : Nat → List Char → Option (List PyVal × List Char)
  | 0, _ => none
  | fuel + 1, cs =>
    match parseVal fuel cs with
    | none => none
    | some (v, r) =>
      match skipWs r with
      | [] => none
      | c :: rest =>
        if c = ',' then
          match parseItems fuel rest with
          | some (vs, r2) => some (v :: vs, r2)
          | none => none
        else if c = ']' then some ([v], rest)
        else none
/-- Entries of a non-empty JSON object, consuming the closing brace. -/
def parseEntries : Nat → List Char → Option (List (String × PyVal) × List Char)
  | 0, _ => none
  | fuel + 1, cs =>
    match skipWs cs with
    | [] => none
    | c :: rest =>
      if c = '"' then
        match parseStrAux [] rest with
        | none => none
        | some (key, r) =>
          match skipWs r with
          | [] => none
          | d :: r2 =>
            if d = ':' then
              match parseVal fuel r2 with
              | none => none
              | some (v, r3) =>
                match skipWs r3 with
                | [] => none
                | e :: r4 =>
                  if e = ',' then
                    match parseEntries fuel r4 with
                    | some (es, r5) => some ((key, v) :: es, r5)
                    | none => none
                  else if e = '}' then some ([(key, v)], r4)
                  else none
            else none
      else none
end

/-- Parse a whole JSON document (as `json.loads` over this value model). -/
def json_loads (s : String) : Option PyVal :=
  match parseVal (s.length + 1) s.toList with
  | some (v, rest) => if (skipWs rest).isEmpty then some v else none
  | none => none

def wsOnly (cs : List Char) : Bool := cs.all isWsChar

def headNotDigit : List Char → Bool
  | [] => true
  | c :: _ => !(isDigitChar c)

mutual
/-- Fuel needed by the parser to reparse the serialization of a value. -/
def cost : PyVal → Nat
  | .jlist xs => 1 + costList xs
  | .jdict es => 1 + costEntries es
  | _ => 1
def costList : List PyVal → Nat
  | [] => 0
  | x :: xs => 1 + cost x + costList xs
def costEntries : List (String × PyVal) → Nat
  | [] => 0
  | (_, v) :: es => 1 + cost v + costEntries es
end

/-- Equality of parsed structures up to the ordering of mapping entries:
lists match pointwise, and a mapping matches a permutation of a pointwise
match of its entries. -/
inductive JEquiv : PyVal → PyVal → Prop where
  | jnull : JEquiv .jnull .jnull
  | jbool (b : Bool) : JEquiv (.jbool b) (.jbool b)
  | jint (i : Int) : JEquiv (.jint i) (.jint i)
  | jstr (s : String) : JEquiv (.jstr s) (.jstr s)
  | other (tag : String) : JEquiv (.other tag) (.other tag)
  | jlist (xs ys : List PyVal) (hlen : xs.length = ys.length)
      (helt : ∀ i (h1 : i < xs.length) (h2 : i < ys.length),
        JEquiv (xs.get ⟨i, h1⟩) (ys.get ⟨i, h2⟩)) :
      JEquiv (.jlist xs) (.jlist ys)
  | jdict (xs zs ys : List (String × PyVal)) (hlen : xs.length = zs.length)
      (hkey : ∀ i (h1 : i < xs.length) (h2 : i < zs.length),
        (xs.get ⟨i, h1⟩).1 = (zs.get ⟨i, h2⟩).1)
      (hval : ∀ i (h1 : i < xs.length) (h2 : i < zs.length),
        JEquiv (xs.get ⟨i, h1⟩).2 (zs.get ⟨i, h2⟩).2)
      (hperm : zs.Perm ys) :
      JEquiv (.jdict xs) (.jdict ys)

/-! ## `dump_structure` -/

/-- `dump_structure(struct, path, filename, sort_keys)`. The second component
`some e` means the Python exception `e` propagates to the caller; the state
component keeps all side effects performed up to that point. -/
def dump_structure (fs : FS) (struct : PyVal) (path filename : String)
    (sort_keys : Bool) : FS × Option PyError :=
  if !(validate_filepath path) then
    (fs.record .critical ("Invalid path " ++ path), none)
  else
    let step1 := if fs.isdir path then (fs, none) else fs.mkdir path
    match step1 with
    | (fs1, some e) => (fs1, some e)
    | (fs1, none) =>
      match json_dumps struct sort_keys with
      | .error e => (fs1, some e)
      | .ok struct_str =>
        let filename2 := if validate_filename filename then filename
          else sanitize_filename filename
        (fs1.writeFile (joinPath path filename2) struct_str, none)

/-! ## Config loader (`get_inifile`) and dotenv -/

inductive ConfigHandle where
  | iniConfig (sections : List (String × List (String × String))) : ConfigHandle
  | emptyDict : ConfigHandle
deriving DecidableEq, Repr

/-- Split a character list at the first `=`. -/
def splitFirstEq : List Char → Option (List Char × List Char)
  | [] => none
  | c :: rest =>
    if c = '=' then some ([], rest)
    else
      match splitFirstEq rest with
      | some (a, b) => some (c :: a, b)
      | none => none

def addKV (secs : List (String × List (String × String))) (sec k v : String) :
    List (String × List (String × String)) :=
  match secs with
  | [] => [(sec, [(k, v)])]
  | (n, kvs) :: rest =>
    if n = sec then (n, kvs ++ [(k, v)]) :: rest else (n, kvs) :: addKV rest sec k v

/-- A simplified model of `configparser` parsing: sections in brackets,
`key=value` lines, `#`/`;` comments; any other non-blank line (or a key
before any section header) is a parse error that propagates, like
`configparser.Error`. -/
def parseIniAux : List String → Option String → List (String × List (String × String)) →
    Except PyError (List (String × List (String × String)))
  | [], _, acc => .ok acc
  | line :: rest, cur, acc =>
    let t := line.trim
    if t == "" then parseIniAux rest cur acc
    else
      match t.toList with
      | '#' :: _ => parseIniAux rest cur acc
      | ';' :: _ => parseIniAux rest cur acc
      | '[' :: more =>
        match more.getLast? with
        | some ']' =>
          let name := String.mk more.dropLast
          parseIniAux rest (some name) (acc ++ [(name, [])])
        | _ => .error .parseError
      | _ =>
        match splitFirstEq t.toList with
        | some (k, v) =>
          match cur with
          | some sec =>
            parseIniAux rest cur (addKV acc sec (String.mk k).trim (String.mk v).trim)
          | none => .error .parseError
        | none => .error .parseError

def parseIni (content : String) :
    Except PyError (List (String × List (String × String))) :=
  parseIniAux (content.splitOn "\n") none []

def parseDotenvLine (line : String) : Option (String × String) :=
  let t := line.trim
  if t == "" then none
  else
    match t.toList with
    | '#' :: _ => none
    | _ =>
      match splitFirstEq t.toList with
      | some (k, v) => some ((String.mk k).trim, (String.mk v).trim)
      | none => none

def getenv (env : List (String × String)) (k : String) : Option String :=
  lookupFile env k

/-- `load_dotenv(dotenv_path=path)`: silently does nothing when the file is
missing; keys already present in the environment are not overridden. -/
def load_dotenv (fs : FS) (env : List (String × String)) (path : String) :
    List (String × String) :=
  match lookupFile fs.files path with
  | none => env
  | some content =>
    (content.splitOn "\n").foldl (fun e line =>
      match parseDotenvLine line with
      | some (k, v) => if (getenv e k).isSome then e else e ++ [(k, v)]
      | none => e) env

/-- `get_inifile(projectname)`: locate `<root>/properties/<projectname>.ini`
relative to the module file, returning the empty dict when it is absent;
then export the `.env` file settings. `myEnvFile` stands for the module's
`__file__`. -/
def get_inifile (myEnvFile : String) (fs : FS) (env : List (String × String))
    (projectname : String) :
    Except PyError (ConfigHandle × List (String × String)) :=
  let filepath_lib := dirname myEnvFile
  let filepath := dirname filepath_lib
  let configfile := joinPath (joinPath filepath "properties") (projectname ++ ".ini")
  let handle : Except PyError ConfigHandle :=
    match lookupFile fs.files configfile with
    | none => .ok .emptyDict
    | some content =>
      match parseIni content with
      | .ok secs => .ok (.iniConfig secs)
      | .error e => .error e
  match handle with
  | .error e => .error e
  | .ok h =>
    let envfile := joinPath filepath ".env"
    .ok (h, load_dotenv fs env envfile)

/-! ## Log initializer (`init_loghandler`) and `init_env` -/

structure LogConfig where
  logfile : String
  maxBytes : Nat
  backupCount : Nat
  encoding : String
  level : String
  fileFormat : String
deriving DecidableEq, Repr

def logFormat : String :=
  "%(asctime)s|%(name)s|%(module)s|%(funcName)s|%(lineno)d|%(levelname)s|%(message)s"

/-- Is the error one of the attribute/None-access class: Python raises
`AttributeError` for `None.upper()` and `TypeError` for
`os.path.join(None, ...)`. -/
def isNoneAccessError : PyError → Bool
  | .attributeErrorNone => true
  | .typeErrorNonePath => true
  | _ => false

/-- `init_loghandler(modulename)`. `os.getenv("LOGLEVEL").upper()` raises
`AttributeError` when `LOGLEVEL` is unset; `os.path.join(logdir, ...)` raises
`TypeError` when `LOGDIR` is unset. `hostname` stands for `platform.node()`. -/
def init_loghandler (env : List (String × String)) (modulename hostname : String) :
    Except PyError LogConfig :=
  let logdir := getenv env "LOGDIR"
  match getenv env "LOGLEVEL" with
  | none => .error .attributeErrorNone
  | some lv =>
    let loglevel := lv.toUpper
    let logfn := modulename ++ "_" ++ hostname ++ ".log"
    match logdir with
    | none => .error .typeErrorNonePath
    | some d =>
      .ok { logfile := joinPath d logfn, maxBytes := 1024 * 1024, backupCount := 5,
            encoding := "utf8", level := loglevel, fileFormat := logFormat }

/-- `init_env(projectname, filename)`: config handle after setting up logging. -/
def init_env (myEnvFile : String) (fs : FS) (env : List (String × String))
    (hostname projectname filename : String) : Except PyError ConfigHandle :=
  let modulename := get_modulename filename
  match get_inifile myEnvFile fs env projectname with
  | .error e => .error e
  | .ok (config, env2) =>
    match init_loghandler env2 modulename hostname with
    | .error e => .error e
    | .ok _ => .ok config

/-! ## `LoopInfo` -/

structure LoopInfo where
  rec_cnt : Nat
  loop_cnt : Nat
  attribname : String
  triggercnt : Nat
deriving DecidableEq, Repr

/-- `LoopInfo(attribname, triggercnt)`: initial state plus the printed start
line. `curr_time` stands for `datetime.now().strftime(...)`. -/
def LoopInfo.init (attribname : String) (triggercnt : Nat) (curr_time : String) :
    LoopInfo × List String :=
  ({ rec_cnt := 0, loop_cnt := 0, attribname := attribname, triggercnt := triggercnt },
   [curr_time ++ " - Start working on " ++ attribname])

/-- `info_loop()`: returns the new state, the returned lifetime count, and
the lines printed by this call. -/
def LoopInfo.info_loop (li : LoopInfo) (curr_time : String) :
    LoopInfo × Nat × List String :=
  let rec2 := li.rec_cnt + 1
  let loop2 := li.loop_cnt + 1
  if li.triggercnt ≤ loop2 then
    ({ li with rec_cnt := rec2, loop_cnt := 0 }, rec2,
      [curr_time ++ " - " ++ toString rec2 ++ " " ++ li.attribname ++ " handled"])
  else
    ({ li with rec_cnt := rec2, loop_cnt := loop2 }, rec2, [])

/-- `end_loop()`: the returned lifetime count and the printed summary line. -/
def LoopInfo.end_loop (li : LoopInfo) (curr_time : String) : Nat × List String :=
  (li.rec_cnt, [curr_time ++ " - " ++ toString li.rec_cnt ++ " " ++ li.attribname
    ++ " handled - End.\n"])

/-- Run `n` successive `info_loop` calls, collecting all printed lines. -/
def runSteps (li : LoopInfo) (t : String) : Nat → LoopInfo × List String
  | 0 => (li, [])
  | n + 1 =>
    let p := runSteps li t n
    let q := p.1.info_loop t
    (q.1, p.2 ++ q.2.2)

/-! ## Helper lemmas -/

theorem toList_mk (l : List Char) : (String.mk l).toList = l := rfl

theorem toList_append (a b : String) : (a ++ b).toList = a.toList ++ b.toList := rfl

theorem lookupFile_none_setFile (files : List (String × String)) (p c : String)
    (h : lookupFile files p = none) : setFile files p c = files ++ [(p, c)] := by
  induction files with
  | nil => rfl
  | cons hd tl ih =>
    obtain ⟨q, d⟩ := hd
    by_cases hq : q = p
    · simp [lookupFile, hq] at h
    · simp only [lookupFile, hq, if_neg, ite_false] at h
      simp [setFile, hq, ih h]

theorem lookupFile_append_self (files : List (String × String)) (p c : String)
    (h : lookupFile files p = none) : lookupFile (files ++ [(p, c)]) p = some c := by
  induction files with
  | nil => simp [lookupFile]
  | cons hd tl ih =>
    obtain ⟨q, d⟩ := hd
    by_cases hq : q = p
    · simp [lookupFile, hq] at h
    · simp only [lookupFile, hq, if_neg, ite_false] at h
      simpa [lookupFile, hq] using ih h

theorem validate_filename_eq_false_of_contains (fn : String)
    (h : containsInvalidChar fn = true) : validate_filename fn = false := by
  simp [validate_filename, h]

theorem isfile_record (fs : FS) (lvl : LogLevel) (m p : String) :
    (fs.record lvl m).isfile p = fs.isfile p := rfl

theorem containsInvalidChar_sanitize (fn : String) :
    containsInvalidChar (sanitize_filename fn) = false := by
  unfold sanitize_filename containsInvalidChar
  rw [Bool.eq_false_iff]
  intro hany
  rw [List.any_eq_true] at hany
  obtain ⟨c, hc, hinv⟩ := hany
  rw [toList_mk] at hc
  have hc2 := List.take_subset 255 _ hc
  have hcmem : c ∈ (String.mk (fn.toList.filter (fun c => !(isInvalidFilenameChar c)))).toList
      ∨ c ∈ ("_" : String).toList := by
    by_cases hres : reservedNames.contains
        (String.mk (fn.toList.filter (fun c => !(isInvalidFilenameChar c))))
    · rw [if_pos hres] at hc2
      rw [toList_append] at hc2
      exact List.mem_append.mp hc2
    · rw [if_neg hres] at hc2
      exact Or.inl hc2
  rcases hcmem with hm | hm
  · rw [toList_mk] at hm
    have := List.of_mem_filter hm
    simp only [Bool.not_eq_true'] at this
    rw [this] at hinv
    cases hinv
  · have : c = '_' := by
      cases hm with
      | head => rfl
      | tail _ h => cases h
    rw [this] at hinv
    cases hinv

/-! ## Claim theorems -/

/-- C1: for every parent directory and every candidate filename that is valid
under the platform filename rules, `get_valid_path(parent, fn)` returns the
join of parent and fn unchanged and performs no filesystem write (the state,
including the file map, is returned untouched, so in particular no marker
file is created). -/
theorem get_valid_path_keeps_valid_names (fs : FS) (parent fn : String)
    (hv : validate_filename fn = true) :
    get_valid_path fs parent fn = (fs, joinPath parent fn) := by
  simp [get_valid_path, hv]

theorem get_valid_path_keeps_valid_names_witness :
    validate_filename "ok.txt" = true ∧
      get_valid_path ⟨[], ["/tmp"], []⟩ "/tmp" "ok.txt"
        = (⟨[], ["/tmp"], []⟩, joinPath "/tmp" "ok.txt") :=
  ⟨by decide, get_valid_path_keeps_valid_names ⟨[], ["/tmp"], []⟩ "/tmp" "ok.txt" (by decide)⟩

/-- C2: for every filename containing platform-invalid characters,
`get_valid_path(parent, fn)` returns parent joined with the sanitized name;
the sanitized name contains none of the invalid characters; on the first such
call exactly one marker file named `<sanitized>_changed.txt` is created in
the parent, containing the one line `Name '<original>' changed to
'<sanitized>'`; and a second call with the same original name and parent
leaves the file map unchanged (no additional marker, no rewrite) and returns
the same path. -/
theorem get_valid_path_sanitizes (fs : FS) (parent fn : String)
    (hinv : containsInvalidChar fn = true)
    (hmk : fs.isfile (joinPath parent (sanitize_filename fn ++ changedSuffix)) = false) :
    (get_valid_path fs parent fn).2 = joinPath parent (sanitize_filename fn)
    ∧ containsInvalidChar (sanitize_filename fn) = false
    ∧ (get_valid_path fs parent fn).1.files
        = fs.files ++ [(joinPath parent (sanitize_filename fn ++ changedSuffix),
            changeMsg fn (sanitize_filename fn))]
    ∧ (get_valid_path (get_valid_path fs parent fn).1 parent fn).1.files
        = (get_valid_path fs parent fn).1.files
    ∧ (get_valid_path (get_valid_path fs parent fn).1 parent fn).2
        = joinPath parent (sanitize_filename fn) := by
  have hv := validate_filename_eq_false_of_contains fn hinv
  have hlk : lookupFile fs.files (joinPath parent (sanitize_filename fn ++ changedSuffix))
      = none := by
    have hmk2 : (lookupFile fs.files
        (joinPath parent (sanitize_filename fn ++ changedSuffix))).isSome = false := hmk
    cases hcase : lookupFile fs.files (joinPath parent (sanitize_filename fn ++ changedSuffix)) with
    | none => rfl
    | some v => rw [hcase] at hmk2; cases hmk2
  have hmkrec : (fs.record .info
      ("Need to sanitize stream " ++ fn ++ " to " ++ sanitize_filename fn)).isfile
      (joinPath parent (sanitize_filename fn ++ changedSuffix)) = false := hmk
  have hfirst : get_valid_path fs parent fn =
      (((fs.record .info ("Need to sanitize stream " ++ fn ++ " to " ++ sanitize_filename fn)).record
          .info (changeMsg fn (sanitize_filename fn))).writeFile
        (joinPath parent (sanitize_filename fn ++ changedSuffix))
        (changeMsg fn (sanitize_filename fn)),
       joinPath parent (sanitize_filename fn)) := by
    simp [get_valid_path, hv, hmkrec]
  have hfiles1 : (get_valid_path fs parent fn).1.files
      = fs.files ++ [(joinPath parent (sanitize_filename fn ++ changedSuffix),
          changeMsg fn (sanitize_filename fn))] := by
    rw [hfirst]
    exact lookupFile_none_setFile _ _ _ hlk
  have hisfile2 : (get_valid_path fs parent fn).1.isfile
      (joinPath parent (sanitize_filename fn ++ changedSuffix)) = true := by
    unfold FS.isfile
    rw [hfiles1, lookupFile_append_self _ _ _ hlk]
    rfl
  have hrec2 : ((get_valid_path fs parent fn).1.record .info
      ("Need to sanitize stream " ++ fn ++ " to " ++ sanitize_filename fn)).isfile
      (joinPath parent (sanitize_filename fn ++ changedSuffix)) = true := hisfile2
  have hsecond : get_valid_path (get_valid_path fs parent fn).1 parent fn =
      (((get_valid_path fs parent fn).1.record .info
          ("Need to sanitize stream " ++ fn ++ " to " ++ sanitize_filename fn)),
       joinPath parent (sanitize_filename fn)) := by
    generalize (get_valid_path fs parent fn).1 = X at hrec2 ⊢
    simp [get_valid_path, hv, hrec2]
  refine ⟨by rw [hfirst], containsInvalidChar_sanitize fn, hfiles1, ?_, ?_⟩
  · rw [hsecond]
    rfl
  · rw [hsecond]

theorem get_valid_path_sanitizes_witness :
    containsInvalidChar "a/b.txt" = true
    ∧ (⟨[], ["/data"], []⟩ : FS).isfile
        (joinPath "/data" (sanitize_filename "a/b.txt" ++ changedSuffix)) = false
    ∧ ((get_valid_path ⟨[], ["/data"], []⟩ "/data" "a/b.txt").2
          = joinPath "/data" (sanitize_filename "a/b.txt")
        ∧ containsInvalidChar (sanitize_filename "a/b.txt") = false
        ∧ (get_valid_path ⟨[], ["/data"], []⟩ "/data" "a/b.txt").1.files
            = ([] : List (String × String))
              ++ [(joinPath "/data" (sanitize_filename "a/b.txt" ++ changedSuffix),
                  changeMsg "a/b.txt" (sanitize_filename "a/b.txt"))]
        ∧ (get_valid_path (get_valid_path ⟨[], ["/data"], []⟩ "/data" "a/b.txt").1
              "/data" "a/b.txt").1.files
            = (get_valid_path ⟨[], ["/data"], []⟩ "/data" "a/b.txt").1.files
        ∧ (get_valid_path (get_valid_path ⟨[], ["/data"], []⟩ "/data" "a/b.txt").1
              "/data" "a/b.txt").2
            = joinPath "/data" (sanitize_filename "a/b.txt")) :=
  ⟨by decide, by decide,
    get_valid_path_sanitizes ⟨[], ["/data"], []⟩ "/data" "a/b.txt" (by decide) (by decide)⟩

/-- C4: for every input where `path` fails filepath validation,
`dump_structure` logs at critical severity and returns without creating any
directory or writing any file, and no exception propagates to the caller. -/
theorem dump_structure_invalid_path (fs : FS) (struct : PyVal)
    (path filename : String) (sk : Bool) (hp : validate_filepath path = false) :
    dump_structure fs struct path filename sk
      = (fs.record .critical ("Invalid path " ++ path), none)
    ∧ (dump_structure fs struct path filename sk).1.files = fs.files
    ∧ (dump_structure fs struct path filename sk).1.dirs = fs.dirs
    ∧ (dump_structure fs struct path filename sk).1.logs
        = (LogLevel.critical, "Invalid path " ++ path) :: fs.logs := by
  have h1 : dump_structure fs struct path filename sk
      = (fs.record .critical ("Invalid path " ++ path), none) := by
    simp [dump_structure, hp]
  exact ⟨h1, by rw [h1]; rfl, by rw [h1]; rfl, by rw [h1]; rfl⟩

theorem dump_structure_invalid_path_witness :
    validate_filepath "" = false
    ∧ (dump_structure ⟨[], [], []⟩ .jnull "" "f.json" false
        = ((⟨[], [], []⟩ : FS).record .critical ("Invalid path " ++ "")
          , none)
      ∧ (dump_structure ⟨[], [], []⟩ .jnull "" "f.json" false).1.files = ([] : List (String × String))
      ∧ (dump_structure ⟨[], [], []⟩ .jnull "" "f.json" false).1.dirs = ([] : List String)
      ∧ (dump_structure ⟨[], [], []⟩ .jnull "" "f.json" false).1.logs
          = [(LogLevel.critical, "Invalid path " ++ "")]) :=
  ⟨by decide, dump_structure_invalid_path ⟨[], [], []⟩ .jnull "" "f.json" false (by decide)⟩

/-- C3 counterexample: with an existing directory `/tmp` only, dumping to
`/tmp/a/b` (a syntactically valid path whose parent `/tmp/a` does not exist)
makes `os.mkdir` raise `FileNotFoundError`, which propagates to the caller
(second component `some`); the state is returned unchanged, so no critical
message is logged — contradicting the claim that the operation aborts with a
critical log and no exception reaches the caller. -/
theorem dump_structure_missing_parent_counterexample :
    dump_structure ⟨[], ["/tmp"], []⟩ .jnull "/tmp/a/b" "f.json" false
      = (⟨[], ["/tmp"], []⟩, some .fileNotFoundError) := by decide

/-- C3 (amended): if the target directory does not exist but its parent does,
it is created (non-recursively) before the write; if the parent of `path`
also does not exist, the `FileNotFoundError` raised by `os.mkdir` propagates
to the caller, no file is written, and no critical message is logged. -/
theorem dump_structure_mkdir_behavior (fs : FS) (struct : PyVal)
    (path filename : String) (sk : Bool)
    (hp : validate_filepath path = true) (hnd : fs.isdir path = false) :
    (fs.dirs.contains (dirname path) = true →
      (dump_structure fs struct path filename sk).1.dirs = path :: fs.dirs)
    ∧ (fs.dirs.contains (dirname path) = false →
      dump_structure fs struct path filename sk = (fs, some .fileNotFoundError)) := by
  constructor
  · intro hpar
    have hpar2 : dirname path ∈ fs.dirs := by simpa using hpar
    cases hjs : json_dumps struct sk with
    | error e => simp [dump_structure, hp, hnd, FS.mkdir, hpar2, hjs]
    | ok s => simp [dump_structure, hp, hnd, FS.mkdir, hpar2, hjs, FS.writeFile]
  · intro hpar
    have hpar2 : ¬(dirname path ∈ fs.dirs) := by simpa using hpar
    simp [dump_structure, hp, hnd, FS.mkdir, hpar2]

theorem dump_structure_mkdir_behavior_witness :
    validate_filepath "/tmp/a" = true
    ∧ (⟨[], ["/tmp"], []⟩ : FS).isdir "/tmp/a" = false
    ∧ (((⟨[], ["/tmp"], []⟩ : FS).dirs.contains (dirname "/tmp/a") = true →
        (dump_structure ⟨[], ["/tmp"], []⟩ .jnull "/tmp/a" "f.json" false).1.dirs
          = "/tmp/a" :: ["/tmp"])
      ∧ ((⟨[], ["/tmp"], []⟩ : FS).dirs.contains (dirname "/tmp/a") = false →
        dump_structure ⟨[], ["/tmp"], []⟩ .jnull "/tmp/a" "f.json" false
          = (⟨[], ["/tmp"], []⟩, some .fileNotFoundError))) :=
  ⟨by decide, by decide,
    dump_structure_mkdir_behavior ⟨[], ["/tmp"], []⟩ .jnull "/tmp/a" "f.json" false
      (by decide) (by decide)⟩

theorem runSteps_invariant (a t : String) (N : Nat) (hN : 0 < N) (n : Nat) :
    (runSteps ⟨0, 0, a, N⟩ t n).1 = ⟨n, n % N, a, N⟩
    ∧ (runSteps ⟨0, 0, a, N⟩ t n).2.length = n / N := by
  induction n with
  | zero => exact ⟨by simp [runSteps, Nat.zero_mod], by simp [runSteps]⟩
  | succ n ih =>
    obtain ⟨hst, hlen⟩ := ih
    have hmod : n % N < N := Nat.mod_lt n hN
    rw [runSteps]
    by_cases hfire : N ≤ n % N + 1
    · have hr : n % N + 1 = N := by omega
      have hdm := Nat.div_add_mod n N
      have hn1 : n + 1 = N * (n / N + 1) := by rw [Nat.mul_add, Nat.mul_one]; omega
      have hmod1 : (n + 1) % N = 0 := by rw [hn1]; exact Nat.mul_mod_right N _
      have hdiv1 : (n + 1) / N = n / N + 1 := by
        rw [hn1]; exact Nat.mul_div_cancel_left _ hN
      constructor
      · simp only [hst, LoopInfo.info_loop, if_pos hfire]
        rw [hmod1]
      · simp only [hst, LoopInfo.info_loop, if_pos hfire]
        simp [hlen, hdiv1]
    · have hdm := Nat.div_add_mod n N
      have hn1 : n + 1 = N * (n / N) + (n % N + 1) := by omega
      have hmod1 : (n + 1) % N = n % N + 1 := by
        rw [hn1, Nat.mul_add_mod]
        exact Nat.mod_eq_of_lt (by omega)
      have hdiv1 : (n + 1) / N = n / N := by
        refine Nat.div_eq_of_lt_le ?_ ?_
        · rw [Nat.mul_comm]
          omega
        · have hexp : (n / N + 1) * N = N * (n / N) + N := by ring
          rw [hexp]
          omega
      constructor
      · simp only [hst, LoopInfo.info_loop, if_neg hfire]
        rw [hmod1]
      · simp only [hst, LoopInfo.info_loop, if_neg hfire]
        simp [hlen, hdiv1]

/-- C5 counterexample: with trigger count N = 1 (allowed by the claim, which
only assumes N ≥ 1), after N + 1 = 2 `info_loop` calls the reporter has
printed 2 progress lines, not 1 — the claim's "after N+1 calls still exactly
one progress line" is false at N = 1, where the "next" line at 2N coincides
with call N+1. -/
theorem loopinfo_progress_counterexample :
    (runSteps (LoopInfo.init "x" 1 "T").1 "T" (1 + 1)).2.length = 2 := by decide

/-- C5 (amended): for a `LoopInfo` constructed with trigger count N ≥ 1,
after exactly N `info_loop` calls exactly one progress line has been printed
and the since-last-report counter is 0; after N+1 calls still exactly one
progress line has been printed provided N ≥ 2 (for N = 1 a line is printed
on every call, so the next line appears at call 2N = N+1); every `info_loop`
call increments the lifetime counter by 1 and returns it; and `end_loop`
returns a lifetime count equal to the total number of `info_loop` calls. -/
theorem loopinfo_progress (a t : String) (N : Nat) (hN : 1 ≤ N) :
    (runSteps (LoopInfo.init a N t).1 t N).2.length = 1
    ∧ (runSteps (LoopInfo.init a N t).1 t N).1.loop_cnt = 0
    ∧ (2 ≤ N → (runSteps (LoopInfo.init a N t).1 t (N + 1)).2.length = 1)
    ∧ (∀ li : LoopInfo, (li.info_loop t).1.rec_cnt = li.rec_cnt + 1
        ∧ (li.info_loop t).2.1 = li.rec_cnt + 1)
    ∧ (∀ n : Nat, ((runSteps (LoopInfo.init a N t).1 t n).1.end_loop t).1 = n) := by
  have hN0 : 0 < N := hN
  have hinit : (LoopInfo.init a N t).1 = ⟨0, 0, a, N⟩ := rfl
  refine ⟨?_, ?_, ?_, ?_, ?_⟩
  · rw [hinit, (runSteps_invariant a t N hN0 N).2, Nat.div_self hN0]
  · rw [hinit, (runSteps_invariant a t N hN0 N).1]
    exact Nat.mod_self N
  · intro h2
    rw [hinit, (runSteps_invariant a t N hN0 (N + 1)).2]
    have : N + 1 = N * 1 + 1 := by omega
    rw [this, Nat.mul_add_div hN0, Nat.div_eq_of_lt (by omega)]
  · intro li
    rw [LoopInfo.info_loop]
    by_cases hfire : li.triggercnt ≤ li.loop_cnt + 1
    · rw [if_pos hfire]
      exact ⟨rfl, rfl⟩
    · rw [if_neg hfire]
      exact ⟨rfl, rfl⟩
  · intro n
    rw [hinit, LoopInfo.end_loop, (runSteps_invariant a t N hN0 n).1]

theorem loopinfo_progress_witness :
    1 ≤ 3
    ∧ ((runSteps (LoopInfo.init "rec" 3 "T").1 "T" 3).2.length = 1
      ∧ (runSteps (LoopInfo.init "rec" 3 "T").1 "T" 3).1.loop_cnt = 0
      ∧ (2 ≤ 3 → (runSteps (LoopInfo.init "rec" 3 "T").1 "T" (3 + 1)).2.length = 1)
      ∧ (∀ li : LoopInfo, (li.info_loop "T").1.rec_cnt = li.rec_cnt + 1
          ∧ (li.info_loop "T").2.1 = li.rec_cnt + 1)
      ∧ (∀ n : Nat, ((runSteps (LoopInfo.init "rec" 3 "T").1 "T" n).1.end_loop "T").1 = n)) :=
  ⟨by decide, loopinfo_progress "rec" "T" 3 (by decide)⟩

theorem lookupFile_setFile_ne (files : List (String × String)) (p q c : String)
    (h : p ≠ q) : lookupFile (setFile files q c) p = lookupFile files p := by
  induction files with
  | nil =>
    have hqp : ¬(q = p) := fun hqp => h hqp.symm
    simp [setFile, lookupFile, hqp]
  | cons hd tl ih =>
    obtain ⟨r, d⟩ := hd
    by_cases hr : r = q
    · subst hr
      have hrp : ¬(r = p) := fun hrp => h hrp.symm
      simp [setFile, lookupFile, hrp]
    · simp [setFile, lookupFile, hr, ih]

/-- C7: in `dump_structure`, when `filename` fails filename validation, a
sanitized filename is silently substituted and the write proceeds to the
sanitized name; no marker/audit file is created (unlike `get_valid_path`):
the directory list, the log record, and every file other than the
destination are unaffected, and the destination receives exactly the
serialized content. -/
theorem dump_structure_sanitizes_filename (fs : FS) (struct : PyVal)
    (path filename : String) (sk : Bool) (s : String)
    (hp : validate_filepath path = true)
    (hd : fs.isdir path = true)
    (hf : validate_filename filename = false)
    (hser : json_dumps struct sk = .ok s) :
    dump_structure fs struct path filename sk
      = (fs.writeFile (joinPath path (sanitize_filename filename)) s, none)
    ∧ (dump_structure fs struct path filename sk).1.dirs = fs.dirs
    ∧ (dump_structure fs struct path filename sk).1.logs = fs.logs
    ∧ (dump_structure fs struct path filename sk).1.files
        = setFile fs.files (joinPath path (sanitize_filename filename)) s
    ∧ ∀ p2, p2 ≠ joinPath path (sanitize_filename filename) →
        lookupFile (dump_structure fs struct path filename sk).1.files p2
          = lookupFile fs.files p2 := by
  have h1 : dump_structure fs struct path filename sk
      = (fs.writeFile (joinPath path (sanitize_filename filename)) s, none) := by
    simp [dump_structure, hp, hd, hser, hf]
  refine ⟨h1, by rw [h1]; rfl, by rw [h1]; rfl, by rw [h1]; rfl, ?_⟩
  intro p2 hne
  rw [h1]
  exact lookupFile_setFile_ne fs.files p2 _ s hne

theorem dump_structure_sanitizes_filename_witness :
    validate_filepath "/tmp" = true
    ∧ (⟨[], ["/tmp"], []⟩ : FS).isdir "/tmp" = true
    ∧ validate_filename "a/b" = false
    ∧ json_dumps .jnull false = .ok "null"
    ∧ (dump_structure ⟨[], ["/tmp"], []⟩ .jnull "/tmp" "a/b" false
        = ((⟨[], ["/tmp"], []⟩ : FS).writeFile (joinPath "/tmp" (sanitize_filename "a/b")) "null", none)
      ∧ (dump_structure ⟨[], ["/tmp"], []⟩ .jnull "/tmp" "a/b" false).1.dirs = ["/tmp"]
      ∧ (dump_structure ⟨[], ["/tmp"], []⟩ .jnull "/tmp" "a/b" false).1.logs = ([] : List (LogLevel × String))
      ∧ (dump_structure ⟨[], ["/tmp"], []⟩ .jnull "/tmp" "a/b" false).1.files
          = setFile ([] : List (String × String)) (joinPath "/tmp" (sanitize_filename "a/b")) "null"
      ∧ ∀ p2, p2 ≠ joinPath "/tmp" (sanitize_filename "a/b") →
          lookupFile (dump_structure ⟨[], ["/tmp"], []⟩ .jnull "/tmp" "a/b" false).1.files p2
            = lookupFile ([] : List (String × String)) p2) :=
  ⟨by decide, by decide, by decide, by rfl,
    dump_structure_sanitizes_filename ⟨[], ["/tmp"], []⟩ .jnull "/tmp" "a/b" false "null"
      (by decide) (by decide) (by decide) (by rfl)⟩

/-- C8: for every project name with no corresponding `.ini` file present at
`<project-root>/properties/<projectname>.ini`, `get_inifile` returns the
empty configuration handle (Python's `{}`) with no error, after exporting
the `.env` settings; and `init_env` then returns that empty handle whenever
log initialization succeeds. -/
theorem get_inifile_missing (myEnvFile : String) (fs : FS)
    (env : List (String × String)) (projectname : String)
    (habs : lookupFile fs.files
        (joinPath (joinPath (dirname (dirname myEnvFile)) "properties")
          (projectname ++ ".ini")) = none) :
    get_inifile myEnvFile fs env projectname
      = .ok (.emptyDict, load_dotenv fs env (joinPath (dirname (dirname myEnvFile)) ".env"))
    ∧ ∀ hostname filename cfg,
        init_loghandler (load_dotenv fs env (joinPath (dirname (dirname myEnvFile)) ".env"))
          (get_modulename filename) hostname = .ok cfg →
        init_env myEnvFile fs env hostname projectname filename = .ok .emptyDict := by
  have h1 : get_inifile myEnvFile fs env projectname
      = .ok (.emptyDict, load_dotenv fs env (joinPath (dirname (dirname myEnvFile)) ".env")) := by
    simp [get_inifile, habs]
  refine ⟨h1, ?_⟩
  intro hostname filename cfg hlog
  simp [init_env, h1, hlog]

theorem get_inifile_missing_witness :
    lookupFile ([] : List (String × String))
      (joinPath (joinPath (dirname (dirname "/proj/lib/my_env.py")) "properties")
        ("qsapi" ++ ".ini")) = none
    ∧ (get_inifile "/proj/lib/my_env.py" ⟨[], [], []⟩
          [("LOGDIR", "/logs"), ("LOGLEVEL", "info")] "qsapi"
        = .ok (.emptyDict, load_dotenv ⟨[], [], []⟩
            [("LOGDIR", "/logs"), ("LOGLEVEL", "info")]
            (joinPath (dirname (dirname "/proj/lib/my_env.py")) ".env"))
      ∧ ∀ hostname filename cfg,
          init_loghandler (load_dotenv ⟨[], [], []⟩
              [("LOGDIR", "/logs"), ("LOGLEVEL", "info")]
              (joinPath (dirname (dirname "/proj/lib/my_env.py")) ".env"))
            (get_modulename filename) hostname = .ok cfg →
          init_env "/proj/lib/my_env.py" ⟨[], [], []⟩
            [("LOGDIR", "/logs"), ("LOGLEVEL", "info")] hostname "qsapi" filename
            = .ok .emptyDict) :=
  ⟨by decide,
    get_inifile_missing "/proj/lib/my_env.py" ⟨[], [], []⟩
      [("LOGDIR", "/logs"), ("LOGLEVEL", "info")] "qsapi" (by decide)⟩

theorem init_loghandler_none_access (env : List (String × String))
    (modulename hostname : String)
    (hor : getenv env "LOGDIR" = none ∨ getenv env "LOGLEVEL" = none) :
    ∃ e, init_loghandler env modulename hostname = .error e
      ∧ isNoneAccessError e = true := by
  cases hlv : getenv env "LOGLEVEL" with
  | none => exact ⟨.attributeErrorNone, by simp [init_loghandler, hlv], rfl⟩
  | some lv =>
    have hld : getenv env "LOGDIR" = none := by
      rcases hor with h | h
      · exact h
      · rw [hlv] at h
        cases h
    exact ⟨.typeErrorNonePath, by simp [init_loghandler, hlv, hld], rfl⟩

/-- C9: if either `LOGDIR` or `LOGLEVEL` is unset, `init_loghandler` (and
hence `init_env`) fails with an uncaught error of the attribute/None-access
class (`AttributeError` from `None.upper()`, `TypeError` from
`os.path.join(None, ...)`); when both are set, the log file is
`<modulename>_<hostname>.log` inside `LOGDIR`, rotating at 1 MiB
(`maxBytes = 1048576`) and keeping 5 backups. -/
theorem init_loghandler_env_requirements (env : List (String × String))
    (modulename hostname : String) :
    ((getenv env "LOGDIR" = none ∨ getenv env "LOGLEVEL" = none) →
      ∃ e, init_loghandler env modulename hostname = .error e
        ∧ isNoneAccessError e = true)
    ∧ (∀ lv d, getenv env "LOGLEVEL" = some lv → getenv env "LOGDIR" = some d →
        init_loghandler env modulename hostname = .ok
          { logfile := joinPath d (modulename ++ "_" ++ hostname ++ ".log"),
            maxBytes := 1048576, backupCount := 5, encoding := "utf8",
            level := lv.toUpper, fileFormat := logFormat })
    ∧ (∀ myEnvFile fs projectname filename cfgh env2,
        get_inifile myEnvFile fs env projectname = Except.ok (cfgh, env2) →
        (getenv env2 "LOGDIR" = none ∨ getenv env2 "LOGLEVEL" = none) →
        ∃ e, init_env myEnvFile fs env hostname projectname filename = .error e
          ∧ isNoneAccessError e = true) := by
  refine ⟨init_loghandler_none_access env modulename hostname, ?_, ?_⟩
  · intro lv d hlv hld
    simp [init_loghandler, hlv, hld]
  · intro myEnvFile fs projectname filename cfgh env2 hconf hor2
    obtain ⟨e, he, hne⟩ :=
      init_loghandler_none_access env2 (get_modulename filename) hostname hor2
    exact ⟨e, by simp [init_env, hconf, he], hne⟩

theorem init_loghandler_env_requirements_witness :
    (∃ e, init_loghandler [("LOGLEVEL", "info")] "mod" "host" = .error e
      ∧ isNoneAccessError e = true)
    ∧ (∃ e, init_loghandler [("LOGDIR", "/logs")] "mod" "host" = .error e
      ∧ isNoneAccessError e = true)
    ∧ init_loghandler [("LOGDIR", "/logs"), ("LOGLEVEL", "info")] "mod" "host" = .ok
        { logfile := joinPath "/logs" ("mod" ++ "_" ++ "host" ++ ".log"),
          maxBytes := 1048576, backupCount := 5, encoding := "utf8",
          level := String.toUpper "info", fileFormat := logFormat } :=
  ⟨(init_loghandler_env_requirements [("LOGLEVEL", "info")] "mod" "host").1
      (Or.inl (by decide)),
   (init_loghandler_env_requirements [("LOGDIR", "/logs")] "mod" "host").1
      (Or.inr (by decide)),
   (init_loghandler_env_requirements [("LOGDIR", "/logs"), ("LOGLEVEL", "info")]
      "mod" "host").2.1 "info" "/logs" (by decide) (by decide)⟩

/-! ## Round-trip machinery: digits and whitespace -/

theorem isDigitChar_digitChar (n : Nat) : isDigitChar (digitChar n) = true := by
  unfold digitChar
  split <;> decide

theorem digitChar_toNat (n : Nat) (h : n < 10) : (digitChar n).toNat = 48 + n := by
  interval_cases n <;> decide

theorem natChars_digits (n : Nat) : ∀ c ∈ natChars n, isDigitChar c = true := by
  induction n using Nat.strong_induction_on with
  | _ n ih =>
    rw [natChars]
    split
    · intro c hc
      rw [List.mem_singleton] at hc
      subst hc
      exact isDigitChar_digitChar n
    · intro c hc
      rcases List.mem_append.mp hc with h1 | h2
      · exact ih (n / 10) (Nat.div_lt_self (by omega) (by omega)) c h1
      · rw [List.mem_singleton] at h2
        subst h2
        exact isDigitChar_digitChar _

theorem natChars_cons (n : Nat) : ∃ d t, natChars n = d :: t := by
  induction n using Nat.strong_induction_on with
  | _ n ih =>
    rw [natChars]
    split
    · exact ⟨digitChar n, [], rfl⟩
    · obtain ⟨d, t, hdt⟩ := ih (n / 10) (Nat.div_lt_self (by omega) (by omega))
      exact ⟨d, t ++ [digitChar (n % 10)], by rw [hdt]; rfl⟩

theorem ws_not_digit (c : Char) (h : isWsChar c = true) : isDigitChar c = false := by
  simp only [isWsChar, Bool.or_eq_true, decide_eq_true_eq] at h
  rcases h with ((h | h) | h) | h <;> subst h <;> decide

theorem skipWs_cons_of_not (c : Char) (cs : List Char) (h : isWsChar c = false) :
    skipWs (c :: cs) = c :: cs := by
  simp [skipWs, h]

theorem skipWs_append_of_wsOnly (w cs : List Char) (h : wsOnly w = true) :
    skipWs (w ++ cs) = skipWs cs := by
  induction w with
  | nil => rfl
  | cons c w ih =>
    rw [wsOnly, List.all_cons, Bool.and_eq_true] at h
    rw [List.cons_append, skipWs, if_pos h.1]
    exact ih h.2

theorem skipWs_idem (cs : List Char) : skipWs (skipWs cs) = skipWs cs := by
  induction cs with
  | nil => rfl
  | cons c cs ih =>
    by_cases h : isWsChar c
    · simp [skipWs, h, ih]
    · simp [skipWs, h]

theorem wsOnly_indent (k : Nat) : wsOnly (indentChars k) = true := by
  rw [wsOnly, List.all_eq_true]
  intro c hc
  rw [List.eq_of_mem_replicate hc]
  decide

theorem wsOnly_nl_indent (k : Nat) : wsOnly (nlChar :: indentChars k) = true := by
  rw [wsOnly, List.all_cons, Bool.and_eq_true]
  exact ⟨by decide, wsOnly_indent k⟩

theorem headNotDigit_of_ws (w : List Char) (c : Char) (rest : List Char)
    (hw : wsOnly w = true) (hc : isDigitChar c = false) :
    headNotDigit (w ++ c :: rest) = true := by
  cases w with
  | nil => simp [headNotDigit, hc]
  | cons d w2 =>
    rw [wsOnly, List.all_cons, Bool.and_eq_true] at hw
    simp [headNotDigit, ws_not_digit d hw.1]

theorem takeDigits_append (ds rest : List Char) (hds : ∀ c ∈ ds, isDigitChar c = true)
    (hrest : headNotDigit rest = true) : takeDigits (ds ++ rest) = (ds, rest) := by
  induction ds with
  | nil =>
    cases rest with
    | nil => rfl
    | cons c r =>
      rw [headNotDigit, Bool.not_eq_true'] at hrest
      simp [takeDigits, hrest]
  | cons d ds ih =>
    have hd := hds d (List.mem_cons_self d ds)
    have ih2 := ih (fun c hc => hds c (List.mem_cons_of_mem d hc))
    simp [takeDigits, hd, ih2]

theorem foldl_digitStep_natChars (n : Nat) : ∀ acc,
    List.foldl digitStep acc (natChars n) = acc * 10 ^ (natChars n).length + n := by
  induction n using Nat.strong_induction_on with
  | _ n ih =>
    intro acc
    rw [natChars]
    split
    · rename_i h
      simp only [List.foldl_cons, List.foldl_nil, List.length_singleton, pow_one, digitStep]
      rw [digitChar_toNat n h]
      omega
    · rename_i h
      rw [List.foldl_append, ih (n / 10) (Nat.div_lt_self (by omega) (by omega)) acc]
      simp only [List.foldl_cons, List.foldl_nil, digitStep]
      rw [digitChar_toNat (n % 10) (Nat.mod_lt _ (by omega)), List.length_append,
        List.length_singleton, pow_succ]
      have hdm : 10 * (n / 10) + n % 10 = n := Nat.div_add_mod n 10
      have hexp : acc * (10 ^ (natChars (n / 10)).length * 10)
          = acc * 10 ^ (natChars (n / 10)).length * 10 := by ring
      rw [hexp]
      omega

theorem parseNat_natChars (n : Nat) (rest : List Char)
    (hrest : headNotDigit rest = true) :
    parseNat (natChars n ++ rest) = some (n, rest) := by
  rw [parseNat, takeDigits_append _ _ (natChars_digits n) hrest]
  obtain ⟨d, t, hdt⟩ := natChars_cons n
  rw [hdt]
  have hval : digitsToNat (natChars n) = n := by
    rw [digitsToNat, foldl_digitStep_natChars n 0]
    omega
  rw [hdt] at hval
  simp [hval]

/-! ## Round-trip machinery: strings -/

theorem isHexDigit_hexDigitChar (m : Nat) : isHexDigit (hexDigitChar m) = true := by
  unfold hexDigitChar
  split <;> decide

theorem hexVal_hexDigitChar (m : Nat) (h : m < 16) : hexVal (hexDigitChar m) = m := by
  interval_cases m <;> decide

theorem isHexDigit_zero : isHexDigit '0' = true := by decide

theorem hexVal_zero : hexVal '0' = 0 := by decide

theorem mk_reverse_shift (u : Char) (acc cs : List Char) :
    String.mk ((u :: acc).reverse ++ cs) = String.mk (acc.reverse ++ u :: cs) := by
  rw [List.reverse_cons, List.append_assoc, List.singleton_append]

theorem parseStrAux_escString (cs : List Char) : ∀ acc rest,
    parseStrAux acc (escString cs ++ '"' :: rest)
      = some (String.mk (acc.reverse ++ cs), rest) := by
  induction cs with
  | nil =>
    intro acc rest
    rw [escString, List.nil_append]
    simp [parseStrAux]
  | cons c cs ih =>
    intro acc rest
    rw [escString, List.append_assoc, escChar]
    by_cases h1 : c = '"'
    · rw [if_pos h1]
      subst h1
      have hstep : parseStrAux acc (['\\', '"'] ++ (escString cs ++ '"' :: rest))
          = parseStrAux ('"' :: acc) (escString cs ++ '"' :: rest) := by
        simp [parseStrAux, parseEscSeq, unescChar]
      rw [hstep, ih, mk_reverse_shift]
    · rw [if_neg h1]
      by_cases h2 : c = '\\'
      · rw [if_pos h2]
        subst h2
        have hstep : parseStrAux acc (['\\', '\\'] ++ (escString cs ++ '"' :: rest))
            = parseStrAux ('\\' :: acc) (escString cs ++ '"' :: rest) := by
          simp [parseStrAux, parseEscSeq, unescChar]
        rw [hstep, ih, mk_reverse_shift]
      · rw [if_neg h2]
        by_cases h3 : c = '\n'
        · rw [if_pos h3]
          subst h3
          have hstep : parseStrAux acc (['\\', 'n'] ++ (escString cs ++ '"' :: rest))
              = parseStrAux ('\n' :: acc) (escString cs ++ '"' :: rest) := by
            simp [parseStrAux, parseEscSeq, unescChar]
          rw [hstep, ih, mk_reverse_shift]
        · rw [if_neg h3]
          by_cases h4 : c = '\t'
          · rw [if_pos h4]
            subst h4
            have hstep : parseStrAux acc (['\\', 't'] ++ (escString cs ++ '"' :: rest))
                = parseStrAux ('\t' :: acc) (escString cs ++ '"' :: rest) := by
              simp [parseStrAux, parseEscSeq, unescChar]
            rw [hstep, ih, mk_reverse_shift]
          · rw [if_neg h4]
            by_cases h5 : c = '\r'
            · rw [if_pos h5]
              subst h5
              have hstep : parseStrAux acc (['\\', 'r'] ++ (escString cs ++ '"' :: rest))
                  = parseStrAux ('\r' :: acc) (escString cs ++ '"' :: rest) := by
                simp [parseStrAux, parseEscSeq, unescChar]
              rw [hstep, ih, mk_reverse_shift]
            · rw [if_neg h5]
              by_cases h6 : c = Char.ofNat 8
              · rw [if_pos h6]
                subst h6
                have hstep : parseStrAux acc
                    (['\\', 'b'] ++ (escString cs ++ '"' :: rest))
                    = parseStrAux (Char.ofNat 8 :: acc) (escString cs ++ '"' :: rest) := by
                  simp [parseStrAux, parseEscSeq, unescChar]
                rw [hstep, ih, mk_reverse_shift]
              · rw [if_neg h6]
                by_cases h7 : c = Char.ofNat 12
                · rw [if_pos h7]
                  subst h7
                  have hstep : parseStrAux acc
                      (['\\', 'f'] ++ (escString cs ++ '"' :: rest))
                      = parseStrAux (Char.ofNat 12 :: acc) (escString cs ++ '"' :: rest) := by
                    simp [parseStrAux, parseEscSeq, unescChar]
                  rw [hstep, ih, mk_reverse_shift]
                · rw [if_neg h7]
                  by_cases h8 : c.toNat < 32
                  · rw [if_pos h8]
                    have hx : c.toNat / 16 < 16 := by omega
                    have hy : c.toNat % 16 < 16 := Nat.mod_lt _ (by omega)
                    have harith : ((hexVal '0' * 16 + hexVal '0') * 16
                          + hexVal (hexDigitChar (c.toNat / 16))) * 16
                          + hexVal (hexDigitChar (c.toNat % 16)) = c.toNat := by
                      rw [hexVal_zero, hexVal_hexDigitChar _ hx, hexVal_hexDigitChar _ hy]
                      omega
                    have hstep : parseStrAux acc
                        (['\\', 'u', '0', '0', hexDigitChar (c.toNat / 16),
                            hexDigitChar (c.toNat % 16)]
                          ++ (escString cs ++ '"' :: rest))
                        = parseStrAux (c :: acc) (escString cs ++ '"' :: rest) := by
                      simp only [List.cons_append, List.nil_append]
                      simp [parseStrAux, parseEscSeq, parseHex4, isHexDigit_zero,
                        isHexDigit_hexDigitChar, harith, Char.ofNat_toNat]
                    rw [hstep, ih, mk_reverse_shift]
                  · rw [if_neg h8]
                    have hstep : parseStrAux acc ([c] ++ (escString cs ++ '"' :: rest))
                        = parseStrAux (c :: acc) (escString cs ++ '"' :: rest) := by
                      rw [List.singleton_append]
                      simp only [parseStrAux]
                      rw [if_neg h1, if_neg h2]
                    rw [hstep, ih, mk_reverse_shift]

/-! ## Round-trip machinery: serializer output shapes -/

theorem isDigitChar_props (c : Char) (h : isDigitChar c = true) :
    isWsChar c = false ∧ c ≠ ']' ∧ c ≠ '}' ∧ c ≠ ','
      ∧ c ≠ 'n' ∧ c ≠ 't' ∧ c ≠ 'f' ∧ c ≠ '"' ∧ c ≠ '[' ∧ c ≠ '{' ∧ c ≠ '-' := by
  constructor
  · by_cases hws : isWsChar c = true
    · rw [ws_not_digit c hws] at h
      cases h
    · exact Bool.eq_false_iff.mpr hws
  · refine ⟨?_, ?_, ?_, ?_, ?_, ?_, ?_, ?_, ?_, ?_⟩ <;>
      (intro he; subst he; exact absurd h (by decide))

theorem serVal_shape (v : PyVal) (k : Nat) (s : List Char) (h : serVal v k = some s) :
    ∃ c t, s = c :: t ∧ isWsChar c = false ∧ c ≠ ']' ∧ c ≠ '}' ∧ c ≠ ',' := by
  cases v with
  | jnull =>
    simp only [serVal, Option.some.injEq] at h
    exact ⟨'n', ['u', 'l', 'l'], h.symm, by decide, by decide, by decide, by decide⟩
  | jbool b =>
    cases b with
    | true =>
      simp only [serVal, Option.some.injEq] at h
      exact ⟨'t', ['r', 'u', 'e'], h.symm, by decide, by decide, by decide, by decide⟩
    | false =>
      simp only [serVal, Option.some.injEq] at h
      exact ⟨'f', ['a', 'l', 's', 'e'], h.symm, by decide, by decide, by decide, by decide⟩
  | jint i =>
    simp only [serVal, Option.some.injEq] at h
    rw [intChars] at h
    by_cases hneg : i < 0
    · rw [if_pos hneg] at h
      exact ⟨'-', natChars i.natAbs, h.symm, by decide, by decide, by decide, by decide⟩
    · rw [if_neg hneg] at h
      obtain ⟨d, t, hdt⟩ := natChars_cons i.natAbs
      rw [hdt] at h
      have hd := natChars_digits i.natAbs d (by rw [hdt]; exact List.mem_cons_self d t)
      obtain ⟨hws, hne1, hne2, hne3, _⟩ := isDigitChar_props d hd
      exact ⟨d, t, h.symm, hws, hne1, hne2, hne3⟩
  | jstr s0 =>
    simp only [serVal, Option.some.injEq] at h
    exact ⟨'"', escString s0.toList ++ ['"'], h.symm, by decide, by decide, by decide, by decide⟩
  | jlist xs =>
    cases xs with
    | nil =>
      simp only [serVal, Option.some.injEq] at h
      exact ⟨'[', [']'], h.symm, by decide, by decide, by decide, by decide⟩
    | cons x xs2 =>
      simp only [serVal] at h
      cases hb : serItems (x :: xs2) (k + 2) with
      | none => rw [hb] at h; simp at h
      | some body =>
        rw [hb] at h
        simp only [Option.some.injEq] at h
        exact ⟨'[', _, h.symm, by decide, by decide, by decide, by decide⟩
  | jdict es =>
    cases es with
    | nil =>
      simp only [serVal, Option.some.injEq] at h
      exact ⟨'{', ['}'], h.symm, by decide, by decide, by decide, by decide⟩
    | cons e es2 =>
      simp only [serVal] at h
      cases hb : serEntries (e :: es2) (k + 2) with
      | none => rw [hb] at h; simp at h
      | some body =>
        rw [hb] at h
        simp only [Option.some.injEq] at h
        exact ⟨'{', _, h.symm, by decide, by decide, by decide, by decide⟩
  | other tag =>
    simp only [serVal] at h
    cases h

theorem serItems_shape (x : PyVal) (xs : List PyVal) (k : Nat) (s : List Char)
    (h : serItems (x :: xs) k = some s) :
    ∃ sx t, serVal x k = some sx ∧ s = indentChars k ++ sx ++ t := by
  cases xs with
  | nil =>
    simp only [serItems] at h
    cases hsx : serVal x k with
    | none => rw [hsx] at h; simp at h
    | some sx =>
      rw [hsx] at h
      simp only [Option.some.injEq] at h
      refine ⟨sx, [], rfl, ?_⟩
      rw [List.append_nil]
      exact h.symm
  | cons y ys =>
    simp only [serItems] at h
    cases hsx : serVal x k with
    | none => rw [hsx] at h; simp at h
    | some sx =>
      cases hrest : serItems (y :: ys) k with
      | none => rw [hsx, hrest] at h; simp at h
      | some srest =>
        rw [hsx, hrest] at h
        simp only [Option.some.injEq] at h
        exact ⟨sx, ',' :: nlChar :: srest, rfl, h.symm⟩

theorem serEntries_shape (e : String × PyVal) (es : List (String × PyVal)) (k : Nat)
    (s : List Char) (h : serEntries (e :: es) k = some s) :
    ∃ t, s = indentChars k ++ '"' :: t := by
  obtain ⟨key, v⟩ := e
  cases es with
  | nil =>
    simp only [serEntries] at h
    cases hsv : serVal v k with
    | none => rw [hsv] at h; simp at h
    | some sv =>
      rw [hsv] at h
      simp only [Option.some.injEq] at h
      refine ⟨escString key.toList ++ '"' :: ':' :: ' ' :: sv, ?_⟩
      rw [← h, List.append_assoc, List.cons_append]
  | cons e2 es2 =>
    simp only [serEntries] at h
    cases hsv : serVal v k with
    | none => rw [hsv] at h; simp at h
    | some sv =>
      cases hrest : serEntries (e2 :: es2) k with
      | none => rw [hsv, hrest] at h; simp at h
      | some srest =>
        rw [hsv, hrest] at h
        simp only [Option.some.injEq] at h
        refine ⟨escString key.toList
          ++ ('"' :: ':' :: ' ' :: sv ++ ',' :: nlChar :: srest), ?_⟩
        rw [← h]
        simp only [List.append_assoc, List.cons_append]

/-! ## Round-trip machinery: parser congruences -/

theorem parseVal_wsLead (fuel : Nat) (w cs : List Char) (h : wsOnly w = true) :
    parseVal fuel (w ++ cs) = parseVal fuel cs := by
  cases fuel with
  | zero => rfl
  | succ fuel => simp only [parseVal, skipWs_append_of_wsOnly w cs h]

theorem parseVal_skipWs (fuel : Nat) (cs : List Char) :
    parseVal fuel (skipWs cs) = parseVal fuel cs := by
  cases fuel with
  | zero => rfl
  | succ fuel => simp only [parseVal, skipWs_idem]

theorem parseItems_wsLead (fuel : Nat) (w cs : List Char) (h : wsOnly w = true) :
    parseItems fuel (w ++ cs) = parseItems fuel cs := by
  cases fuel with
  | zero => rfl
  | succ fuel => simp only [parseItems, parseVal_wsLead fuel w cs h]

theorem parseItems_skipWs (fuel : Nat) (cs : List Char) :
    parseItems fuel (skipWs cs) = parseItems fuel cs := by
  cases fuel with
  | zero => rfl
  | succ fuel => simp only [parseItems, parseVal_skipWs]

theorem parseEntries_wsLead (fuel : Nat) (w cs : List Char) (h : wsOnly w = true) :
    parseEntries fuel (w ++ cs) = parseEntries fuel cs := by
  cases fuel with
  | zero => rfl
  | succ fuel => simp only [parseEntries, skipWs_append_of_wsOnly w cs h]

theorem parseEntries_skipWs (fuel : Nat) (cs : List Char) :
    parseEntries fuel (skipWs cs) = parseEntries fuel cs := by
  cases fuel with
  | zero => rfl
  | succ fuel => simp only [parseEntries, skipWs_idem]

theorem cost_pos (v : PyVal) : 1 ≤ cost v := by
  cases v <;> (simp only [cost]; omega)

theorem costList_pos (x : PyVal) (xs : List PyVal) : 1 ≤ costList (x :: xs) := by
  simp only [costList]
  omega

theorem costEntries_pos (e : String × PyVal) (es : List (String × PyVal)) :
    1 ≤ costEntries (e :: es) := by
  obtain ⟨key, v⟩ := e
  simp only [costEntries]
  omega

theorem mk_toList (s : String) : String.mk s.toList = s := rfl

theorem mk_data (s : String) : String.mk s.data = s := rfl

theorem skipWs_cons_ws (c : Char) (cs : List Char) (h : isWsChar c = true) :
    skipWs (c :: cs) = skipWs cs := by
  simp [skipWs, h]

theorem headNotDigit_cons (c : Char) (cs : List Char) :
    headNotDigit (c :: cs) = !(isDigitChar c) := rfl

theorem parseVal_step_null (fuel : Nat) (r : List Char) :
    parseVal (fuel + 1) ('n' :: 'u' :: 'l' :: 'l' :: r) = some (.jnull, r) := by
  simp [parseVal, skipWs, isWsChar]

theorem parseVal_step_true (fuel : Nat) (r : List Char) :
    parseVal (fuel + 1) ('t' :: 'r' :: 'u' :: 'e' :: r) = some (.jbool true, r) := by
  simp [parseVal, skipWs, isWsChar]

theorem parseVal_step_false (fuel : Nat) (r : List Char) :
    parseVal (fuel + 1) ('f' :: 'a' :: 'l' :: 's' :: 'e' :: r) = some (.jbool false, r) := by
  simp [parseVal, skipWs, isWsChar]

theorem parseVal_step_quote (fuel : Nat) (cs : List Char) :
    parseVal (fuel + 1) ('"' :: cs) =
      (match parseStrAux [] cs with
       | some (s, r) => some (.jstr s, r)
       | none => none) := by
  simp [parseVal, skipWs, isWsChar]

theorem parseVal_step_lbrack (fuel : Nat) (cs : List Char) :
    parseVal (fuel + 1) ('[' :: cs) =
      (match skipWs cs with
       | [] => none
       | d :: rest2 =>
         if d = ']' then some (.jlist [], rest2)
         else
           match parseItems fuel (d :: rest2) with
           | some (vs, r) => some (.jlist vs, r)
           | none => none) := by
  simp [parseVal, skipWs, isWsChar]

theorem parseVal_step_lbrace (fuel : Nat) (cs : List Char) :
    parseVal (fuel + 1) ('{' :: cs) =
      (match skipWs cs with
       | [] => none
       | d :: rest2 =>
         if d = '}' then some (.jdict [], rest2)
         else
           match parseEntries fuel (d :: rest2) with
           | some (es, r) => some (.jdict es, r)
           | none => none) := by
  simp [parseVal, skipWs, isWsChar]

theorem parseVal_step_minus (fuel : Nat) (cs : List Char) :
    parseVal (fuel + 1) ('-' :: cs) =
      (match parseNat cs with
       | some (m, r) => some (.jint (-(m : Int)), r)
       | none => none) := by
  simp [parseVal, skipWs, isWsChar]

theorem parseVal_step_digit (fuel : Nat) (c : Char) (cs : List Char)
    (hd : isDigitChar c = true) :
    parseVal (fuel + 1) (c :: cs) =
      (match parseNat (c :: cs) with
       | some (m, r) => some (.jint (m : Int), r)
       | none => none) := by
  obtain ⟨hws, _, _, _, hn, ht, hf, hq, hlb, hlc, hm⟩ := isDigitChar_props c hd
  simp [parseVal, skipWs, hws, hn, ht, hf, hq, hlb, hlc, hm, hd]

/-- Master round-trip lemma: the parser re-reads any serializer output, for
values (with any rest not starting with a digit), item lists (followed by
whitespace and the closing bracket) and entry lists (followed by whitespace
and the closing brace). -/
theorem parse_ser_master (fuel : Nat) :
    (∀ v k s rest, serVal v k = some s → cost v ≤ fuel → headNotDigit rest = true →
      parseVal fuel (s ++ rest) = some (v, rest))
    ∧ (∀ x xs k s w rest, serItems (x :: xs) k = some s → costList (x :: xs) ≤ fuel →
        wsOnly w = true →
      parseItems fuel (s ++ (w ++ ']' :: rest)) = some (x :: xs, rest))
    ∧ (∀ e es k s w rest, serEntries (e :: es) k = some s → costEntries (e :: es) ≤ fuel →
        wsOnly w = true →
      parseEntries fuel (s ++ (w ++ '}' :: rest)) = some (e :: es, rest)) := by
  induction fuel with
  | zero =>
    refine ⟨?_, ?_, ?_⟩
    · intro v k s rest _ hcost _
      exact absurd hcost (by have := cost_pos v; omega)
    · intro x xs k s w rest _ hcost _
      exact absurd hcost (by have := costList_pos x xs; omega)
    · intro e es k s w rest _ hcost _
      exact absurd hcost (by have := costEntries_pos e es; omega)
  | succ fuel ih =>
    obtain ⟨ihV, ihI, ihE⟩ := ih
    refine ⟨?_, ?_, ?_⟩
    · -- values
      intro v k s rest hser hcost hrest
      cases v with
      | jnull =>
        simp only [serVal, Option.some.injEq] at hser
        subst hser
        simp only [List.cons_append, List.nil_append]
        exact parseVal_step_null fuel rest
      | jbool b =>
        cases b with
        | true =>
          simp only [serVal, Option.some.injEq] at hser
          subst hser
          simp only [List.cons_append, List.nil_append]
          exact parseVal_step_true fuel rest
        | false =>
          simp only [serVal, Option.some.injEq] at hser
          subst hser
          simp only [List.cons_append, List.nil_append]
          exact parseVal_step_false fuel rest
      | jint i =>
        simp only [serVal, Option.some.injEq] at hser
        subst hser
        rw [intChars]
        by_cases hneg : i < 0
        · rw [if_pos hneg]
          have hparse := parseNat_natChars i.natAbs rest hrest
          simp only [List.cons_append]
          rw [parseVal_step_minus]
          simp only [hparse]
          have hival : (-(i.natAbs : Int)) = i := by omega
          rw [hival]
        · rw [if_neg hneg]
          obtain ⟨d, t, hdt⟩ := natChars_cons i.natAbs
          have hd := natChars_digits i.natAbs d (by rw [hdt]; exact List.mem_cons_self d t)
          have hparse := parseNat_natChars i.natAbs rest hrest
          rw [hdt] at hparse ⊢
          rw [List.cons_append] at hparse ⊢
          rw [parseVal_step_digit fuel d _ hd]
          simp only [hparse]
          have hival : ((i.natAbs : Int)) = i := by omega
          rw [hival]
      | jstr s0 =>
        simp only [serVal, Option.some.injEq] at hser
        subst hser
        simp only [List.cons_append, List.append_assoc, List.singleton_append,
          List.nil_append]
        rw [parseVal_step_quote]
        simp only [parseStrAux_escString s0.toList [] rest, List.reverse_nil,
          List.nil_append, mk_toList]
      | jlist xs =>
        cases xs with
        | nil =>
          simp only [serVal, Option.some.injEq] at hser
          subst hser
          simp only [List.cons_append, List.nil_append]
          rw [parseVal_step_lbrack]
          rw [skipWs_cons_of_not ']' _ (by decide)]
          simp
        | cons x xs2 =>
          simp only [serVal] at hser
          cases hb : serItems (x :: xs2) (k + 2) with
          | none => rw [hb] at hser; simp at hser
          | some body =>
            rw [hb] at hser
            simp only [Option.some.injEq] at hser
            subst hser
            obtain ⟨sx, t2, hsx, hbody⟩ := serItems_shape x xs2 (k + 2) body hb
            obtain ⟨c0, t0, hc0, hws0, hne1, hne2, hne3⟩ := serVal_shape x (k + 2) sx hsx
            have hcost2 : costList (x :: xs2) ≤ fuel := by
              simp only [cost] at hcost
              omega
            simp only [List.cons_append, List.append_assoc, List.singleton_append,
              List.nil_append]
            rw [parseVal_step_lbrack]
            have hskipinner :
                skipWs (nlChar :: (body ++ nlChar :: (indentChars k ++ ']' :: rest)))
                = c0 :: (t0 ++ (t2 ++ nlChar :: (indentChars k ++ ']' :: rest))) := by
              rw [skipWs_cons_ws nlChar _ (by decide), hbody, hc0]
              simp only [List.append_assoc, List.cons_append]
              rw [skipWs_append_of_wsOnly _ _ (wsOnly_indent (k + 2))]
              exact skipWs_cons_of_not c0 _ hws0
            rw [hskipinner]
            have hitems : parseItems fuel
                (c0 :: (t0 ++ (t2 ++ nlChar :: (indentChars k ++ ']' :: rest))))
                = some (x :: xs2, rest) := by
              rw [← hskipinner, parseItems_skipWs]
              have hpre : nlChar :: (body ++ nlChar :: (indentChars k ++ ']' :: rest))
                  = [nlChar] ++ (body ++ ((nlChar :: indentChars k) ++ (']' :: rest))) := by
                simp
              rw [hpre, parseItems_wsLead fuel [nlChar] _ (by decide)]
              exact ihI x xs2 (k + 2) body (nlChar :: indentChars k) rest hb hcost2
                (wsOnly_nl_indent k)
            simp only [if_neg hne1, hitems]
      | jdict es =>
        cases es with
        | nil =>
          simp only [serVal, Option.some.injEq] at hser
          subst hser
          simp only [List.cons_append, List.nil_append]
          rw [parseVal_step_lbrace]
          rw [skipWs_cons_of_not '}' _ (by decide)]
          simp
        | cons e es2 =>
          simp only [serVal] at hser
          cases hb : serEntries (e :: es2) (k + 2) with
          | none => rw [hb] at hser; simp at hser
          | some body =>
            rw [hb] at hser
            simp only [Option.some.injEq] at hser
            subst hser
            obtain ⟨t2, hbody⟩ := serEntries_shape e es2 (k + 2) body hb
            have hcost2 : costEntries (e :: es2) ≤ fuel := by
              simp only [cost] at hcost
              omega
            simp only [List.cons_append, List.append_assoc, List.singleton_append,
              List.nil_append]
            rw [parseVal_step_lbrace]
            have hskipinner :
                skipWs (nlChar :: (body ++ nlChar :: (indentChars k ++ '}' :: rest)))
                = '"' :: (t2 ++ (nlChar :: (indentChars k ++ '}' :: rest))) := by
              rw [skipWs_cons_ws nlChar _ (by decide), hbody]
              simp only [List.append_assoc, List.cons_append]
              rw [skipWs_append_of_wsOnly _ _ (wsOnly_indent (k + 2))]
              exact skipWs_cons_of_not '"' _ (by decide)
            rw [hskipinner]
            have hents : parseEntries fuel
                ('"' :: (t2 ++ (nlChar :: (indentChars k ++ '}' :: rest))))
                = some (e :: es2, rest) := by
              rw [← hskipinner, parseEntries_skipWs]
              have hpre : nlChar :: (body ++ nlChar :: (indentChars k ++ '}' :: rest))
                  = [nlChar] ++ (body ++ ((nlChar :: indentChars k) ++ ('}' :: rest))) := by
                simp
              rw [hpre, parseEntries_wsLead fuel [nlChar] _ (by decide)]
              exact ihE e es2 (k + 2) body (nlChar :: indentChars k) rest hb hcost2
                (wsOnly_nl_indent k)
            simp only [if_neg (by decide : ¬('"' = '}')), hents]
      | other tag =>
        simp only [serVal] at hser
        cases hser
    · -- item lists
      intro x xs k s w rest hser hcost hws
      cases xs with
      | nil =>
        simp only [serItems] at hser
        cases hsx : serVal x k with
        | none => rw [hsx] at hser; simp at hser
        | some sx =>
          rw [hsx] at hser
          simp only [Option.some.injEq] at hser
          subst hser
          have hcostx : cost x ≤ fuel := by
            simp only [costList] at hcost
            omega
          simp only [parseItems, List.append_assoc]
          have hv : parseVal fuel (indentChars k ++ (sx ++ (w ++ ']' :: rest)))
              = some (x, w ++ ']' :: rest) := by
            rw [parseVal_wsLead fuel _ _ (wsOnly_indent k)]
            exact ihV x k sx (w ++ ']' :: rest) hsx hcostx
              (headNotDigit_of_ws w ']' rest hws (by decide))
          simp only [hv]
          rw [skipWs_append_of_wsOnly w _ hws, skipWs_cons_of_not ']' _ (by decide)]
          simp
      | cons y ys =>
        simp only [serItems] at hser
        cases hsx : serVal x k with
        | none => rw [hsx] at hser; simp at hser
        | some sx =>
          cases hrest2 : serItems (y :: ys) k with
          | none => rw [hsx, hrest2] at hser; simp at hser
          | some srest =>
            rw [hsx, hrest2] at hser
            simp only [Option.some.injEq] at hser
            subst hser
            have hcostx : cost x ≤ fuel := by
              simp only [costList] at hcost
              omega
            have hcostrest : costList (y :: ys) ≤ fuel := by
              simp only [costList] at hcost ⊢
              omega
            simp only [parseItems, List.append_assoc, List.cons_append]
            have hv : parseVal fuel
                (indentChars k ++ (sx ++ (',' :: nlChar :: (srest ++ (w ++ ']' :: rest)))))
                = some (x, ',' :: nlChar :: (srest ++ (w ++ ']' :: rest))) := by
              rw [parseVal_wsLead fuel _ _ (wsOnly_indent k)]
              exact ihV x k sx _ hsx hcostx (by rw [headNotDigit_cons]; decide)
            simp only [hv]
            rw [skipWs_cons_of_not ',' _ (by decide)]
            have hitems2 : parseItems fuel (nlChar :: (srest ++ (w ++ ']' :: rest)))
                = some (y :: ys, rest) := by
              have hpre : nlChar :: (srest ++ (w ++ ']' :: rest))
                  = [nlChar] ++ (srest ++ (w ++ ']' :: rest)) := rfl
              rw [hpre, parseItems_wsLead fuel [nlChar] _ (by decide)]
              exact ihI y ys k srest w rest hrest2 hcostrest hws
            simp [hitems2]
    · -- entry lists
      intro e es k s w rest hser hcost hws
      obtain ⟨key, v⟩ := e
      cases es with
      | nil =>
        simp only [serEntries] at hser
        cases hsv : serVal v k with
        | none => rw [hsv] at hser; simp at hser
        | some sv =>
          rw [hsv] at hser
          simp only [Option.some.injEq] at hser
          subst hser
          have hcostv : cost v ≤ fuel := by
            simp only [costEntries] at hcost
            omega
          simp only [parseEntries, List.append_assoc, List.cons_append]
          rw [skipWs_append_of_wsOnly _ _ (wsOnly_indent k),
            skipWs_cons_of_not '"' _ (by decide)]
          have hkey := parseStrAux_escString key.data []
            (':' :: ' ' :: (sv ++ (w ++ '}' :: rest)))
          have hv : parseVal fuel (' ' :: (sv ++ (w ++ '}' :: rest)))
              = some (v, w ++ '}' :: rest) := by
            have hpre : ' ' :: (sv ++ (w ++ '}' :: rest))
                = [' '] ++ (sv ++ (w ++ '}' :: rest)) := rfl
            rw [hpre, parseVal_wsLead fuel [' '] _ (by decide)]
            exact ihV v k sv _ hsv hcostv (headNotDigit_of_ws w '}' rest hws (by decide))
          have hskipw : skipWs (w ++ '}' :: rest) = '}' :: rest := by
            rw [skipWs_append_of_wsOnly _ _ hws]
            exact skipWs_cons_of_not '}' _ (by decide)
          simp [hkey, mk_data, hv, hskipw, skipWs, isWsChar]
      | cons e2 es2 =>
        simp only [serEntries] at hser
        cases hsv : serVal v k with
        | none => rw [hsv] at hser; simp at hser
        | some sv =>
          cases hrest2 : serEntries (e2 :: es2) k with
          | none => rw [hsv, hrest2] at hser; simp at hser
          | some srest =>
            rw [hsv, hrest2] at hser
            simp only [Option.some.injEq] at hser
            subst hser
            have hcostv : cost v ≤ fuel := by
              simp only [costEntries] at hcost
              omega
            have hcostrest : costEntries (e2 :: es2) ≤ fuel := by
              simp only [costEntries] at hcost ⊢
              omega
            simp only [parseEntries, List.append_assoc, List.cons_append]
            rw [skipWs_append_of_wsOnly _ _ (wsOnly_indent k),
              skipWs_cons_of_not '"' _ (by decide)]
            have hkey := parseStrAux_escString key.data []
              (':' :: ' ' :: (sv ++ ',' :: nlChar :: (srest ++ (w ++ '}' :: rest))))
            have hv : parseVal fuel
                (' ' :: (sv ++ ',' :: nlChar :: (srest ++ (w ++ '}' :: rest))))
                = some (v, ',' :: nlChar :: (srest ++ (w ++ '}' :: rest))) := by
              have hpre : ' ' :: (sv ++ ',' :: nlChar :: (srest ++ (w ++ '}' :: rest)))
                  = [' '] ++ (sv ++ ',' :: nlChar :: (srest ++ (w ++ '}' :: rest))) := rfl
              rw [hpre, parseVal_wsLead fuel [' '] _ (by decide)]
              exact ihV v k sv _ hsv hcostv (by rw [headNotDigit_cons]; decide)
            have hents2 : parseEntries fuel
                (nlChar :: (srest ++ (w ++ '}' :: rest))) = some (e2 :: es2, rest) := by
              have hpre : nlChar :: (srest ++ (w ++ '}' :: rest))
                  = [nlChar] ++ (srest ++ (w ++ '}' :: rest)) := rfl
              rw [hpre, parseEntries_wsLead fuel [nlChar] _ (by decide)]
              exact ihE e2 es2 k srest w rest hrest2 hcostrest hws
            simp [hkey, mk_data, hv, hents2, skipWs, isWsChar]

/-! ## Serializer totality and failure -/

theorem serVal_total_aux (n : Nat) :
    (∀ v : PyVal, sizeOf v ≤ n → ∀ k, noOther v = true → (serVal v k).isSome = true)
    ∧ (∀ xs : List PyVal, sizeOf xs ≤ n → ∀ k, noOtherList xs = true →
        (serItems xs k).isSome = true)
    ∧ (∀ es : List (String × PyVal), sizeOf es ≤ n → ∀ k, noOtherEntries es = true →
        (serEntries es k).isSome = true) := by
  induction n with
  | zero =>
    refine ⟨?_, ?_, ?_⟩
    · intro v hs
      cases v <;> simp_all
    · intro xs hs
      cases xs <;> simp_all
    · intro es hs
      cases es <;> simp_all
  | succ n ih =>
    obtain ⟨ihV, ihL, ihE⟩ := ih
    refine ⟨?_, ?_, ?_⟩
    · intro v hs k hno
      cases v with
      | jnull => rfl
      | jbool b => cases b <;> rfl
      | jint i => rfl
      | jstr s0 => rfl
      | jlist xs =>
        cases xs with
        | nil => rfl
        | cons x xs2 =>
          have hsz : sizeOf (x :: xs2) ≤ n := by
            simp only [PyVal.jlist.sizeOf_spec] at hs
            omega
          have hno2 : noOtherList (x :: xs2) = true := by
            simpa only [noOther] using hno
          have := ihL (x :: xs2) hsz (k + 2) hno2
          cases hb : serItems (x :: xs2) (k + 2) with
          | none => rw [hb] at this; cases this
          | some body => simp [serVal, hb]
      | jdict es =>
        cases es with
        | nil => rfl
        | cons e es2 =>
          have hsz : sizeOf (e :: es2) ≤ n := by
            simp only [PyVal.jdict.sizeOf_spec] at hs
            omega
          have hno2 : noOtherEntries (e :: es2) = true := by
            simpa only [noOther] using hno
          have := ihE (e :: es2) hsz (k + 2) hno2
          cases hb : serEntries (e :: es2) (k + 2) with
          | none => rw [hb] at this; cases this
          | some body => simp [serVal, hb]
      | other tag =>
        simp only [noOther] at hno
        exact Bool.noConfusion hno
    · intro xs hs k hno
      cases xs with
      | nil => rfl
      | cons x xs2 =>
        rw [noOtherList, Bool.and_eq_true] at hno
        have hsx : sizeOf x ≤ n := by
          simp only [List.cons.sizeOf_spec] at hs
          omega
        have hvx := ihV x hsx k hno.1
        cases xs2 with
        | nil =>
          cases hb : serVal x k with
          | none => rw [hb] at hvx; cases hvx
          | some sx => simp [serItems, hb]
        | cons y ys =>
          have hsy : sizeOf (y :: ys) ≤ n := by
            simp only [List.cons.sizeOf_spec] at hs ⊢
            omega
          have hvr := ihL (y :: ys) hsy k hno.2
          cases hb : serVal x k with
          | none => rw [hb] at hvx; cases hvx
          | some sx =>
            cases hb2 : serItems (y :: ys) k with
            | none => rw [hb2] at hvr; cases hvr
            | some srest => simp [serItems, hb, hb2]
    · intro es hs k hno
      cases es with
      | nil => rfl
      | cons e es2 =>
        obtain ⟨key, v⟩ := e
        rw [noOtherEntries, Bool.and_eq_true] at hno
        have hsv : sizeOf v ≤ n := by
          simp only [List.cons.sizeOf_spec, Prod.mk.sizeOf_spec] at hs
          omega
        have hvv := ihV v hsv k hno.1
        cases es2 with
        | nil =>
          cases hb : serVal v k with
          | none => rw [hb] at hvv; cases hvv
          | some sv => simp [serEntries, hb]
        | cons e2 es3 =>
          have hse : sizeOf (e2 :: es3) ≤ n := by
            simp only [List.cons.sizeOf_spec, Prod.mk.sizeOf_spec] at hs ⊢
            omega
          have hvr := ihE (e2 :: es3) hse k hno.2
          cases hb : serVal v k with
          | none => rw [hb] at hvv; cases hvv
          | some sv =>
            cases hb2 : serEntries (e2 :: es3) k with
            | none => rw [hb2] at hvr; cases hvr
            | some srest => simp [serEntries, hb, hb2]

theorem serVal_total (v : PyVal) (k : Nat) (h : noOther v = true) :
    ∃ s, serVal v k = some s := by
  have := (serVal_total_aux (sizeOf v)).1 v le_rfl k h
  exact Option.isSome_iff_exists.mp this

theorem serVal_none_aux (n : Nat) :
    (∀ v : PyVal, sizeOf v ≤ n → ∀ k, noOther v = false → serVal v k = none)
    ∧ (∀ xs : List PyVal, sizeOf xs ≤ n → ∀ k, noOtherList xs = false →
        serItems xs k = none)
    ∧ (∀ es : List (String × PyVal), sizeOf es ≤ n → ∀ k, noOtherEntries es = false →
        serEntries es k = none) := by
  induction n with
  | zero =>
    refine ⟨?_, ?_, ?_⟩
    · intro v hs
      cases v <;> simp_all
    · intro xs hs
      cases xs <;> simp_all
    · intro es hs
      cases es <;> simp_all
  | succ n ih =>
    obtain ⟨ihV, ihL, ihE⟩ := ih
    refine ⟨?_, ?_, ?_⟩
    · intro v hs k hno
      cases v with
      | jnull => simp only [noOther] at hno; exact Bool.noConfusion hno
      | jbool b => simp only [noOther] at hno; exact Bool.noConfusion hno
      | jint i => simp only [noOther] at hno; exact Bool.noConfusion hno
      | jstr s0 => simp only [noOther] at hno; exact Bool.noConfusion hno
      | jlist xs =>
        cases xs with
        | nil => simp [noOther, noOtherList] at hno
        | cons x xs2 =>
          have hsz : sizeOf (x :: xs2) ≤ n := by
            simp only [PyVal.jlist.sizeOf_spec] at hs
            omega
          have hno2 : noOtherList (x :: xs2) = false := by
            simpa only [noOther] using hno
          have := ihL (x :: xs2) hsz (k + 2) hno2
          simp [serVal, this]
      | jdict es =>
        cases es with
        | nil => simp [noOther, noOtherEntries] at hno
        | cons e es2 =>
          have hsz : sizeOf (e :: es2) ≤ n := by
            simp only [PyVal.jdict.sizeOf_spec] at hs
            omega
          have hno2 : noOtherEntries (e :: es2) = false := by
            simpa only [noOther] using hno
          have := ihE (e :: es2) hsz (k + 2) hno2
          simp [serVal, this]
      | other tag => rfl
    · intro xs hs k hno
      cases xs with
      | nil => simp [noOtherList] at hno
      | cons x xs2 =>
        rw [noOtherList, Bool.and_eq_false_iff] at hno
        have hsx : sizeOf x ≤ n := by
          simp only [List.cons.sizeOf_spec] at hs
          omega
        cases xs2 with
        | nil =>
          rcases hno with hno | hno
          · have := ihV x hsx k hno
            simp [serItems, this]
          · simp [noOtherList] at hno
        | cons y ys =>
          rcases hno with hno | hno
          · have := ihV x hsx k hno
            simp [serItems, this]
          · have hsy : sizeOf (y :: ys) ≤ n := by
              simp only [List.cons.sizeOf_spec] at hs ⊢
              omega
            have := ihL (y :: ys) hsy k hno
            cases hb : serVal x k with
            | none => simp [serItems, hb]
            | some sx => simp [serItems, hb, this]
    · intro es hs k hno
      cases es with
      | nil => simp [noOtherEntries] at hno
      | cons e es2 =>
        obtain ⟨key, v⟩ := e
        rw [noOtherEntries, Bool.and_eq_false_iff] at hno
        have hsv : sizeOf v ≤ n := by
          simp only [List.cons.sizeOf_spec, Prod.mk.sizeOf_spec] at hs
          omega
        cases es2 with
        | nil =>
          rcases hno with hno | hno
          · have := ihV v hsv k hno
            simp [serEntries, this]
          · simp [noOtherEntries] at hno
        | cons e2 es3 =>
          rcases hno with hno | hno
          · have := ihV v hsv k hno
            simp [serEntries, this]
          · have hse : sizeOf (e2 :: es3) ≤ n := by
              simp only [List.cons.sizeOf_spec, Prod.mk.sizeOf_spec] at hs ⊢
              omega
            have := ihE (e2 :: es3) hse k hno
            cases hb : serVal v k with
            | none => simp [serEntries, hb]
            | some sv => simp [serEntries, hb, this]

theorem serVal_none (v : PyVal) (k : Nat) (h : noOther v = false) :
    serVal v k = none :=
  (serVal_none_aux (sizeOf v)).1 v le_rfl k h

theorem cost_le_len_aux (n : Nat) :
    (∀ v : PyVal, sizeOf v ≤ n → ∀ k s, serVal v k = some s → cost v ≤ s.length)
    ∧ (∀ (x : PyVal) (xs : List PyVal), sizeOf (x :: xs) ≤ n → ∀ k s,
        serItems (x :: xs) k = some s → costList (x :: xs) ≤ s.length + 1)
    ∧ (∀ (e : String × PyVal) (es : List (String × PyVal)), sizeOf (e :: es) ≤ n →
        ∀ k s, serEntries (e :: es) k = some s → costEntries (e :: es) ≤ s.length + 1) := by
  induction n with
  | zero =>
    refine ⟨?_, ?_, ?_⟩
    · intro v hs
      cases v <;> simp_all
    · intro x xs hs
      simp_all
    · intro e es hs
      simp_all
  | succ n ih =>
    obtain ⟨ihV, ihI, ihE⟩ := ih
    refine ⟨?_, ?_, ?_⟩
    · intro v hs k s hser
      cases v with
      | jnull =>
        simp only [serVal, Option.some.injEq] at hser
        subst hser
        simp [cost]
      | jbool b =>
        cases b <;>
          (simp only [serVal, Option.some.injEq] at hser; subst hser; simp [cost])
      | jint i =>
        simp only [serVal, Option.some.injEq] at hser
        subst hser
        simp only [cost]
        rw [intChars]
        by_cases hneg : i < 0
        · rw [if_pos hneg]
          simp
        · rw [if_neg hneg]
          obtain ⟨d, t, hdt⟩ := natChars_cons i.natAbs
          rw [hdt]
          simp
      | jstr s0 =>
        simp only [serVal, Option.some.injEq] at hser
        subst hser
        simp only [cost]
        simp [List.length_append]
      | jlist xs =>
        cases xs with
        | nil =>
          simp only [serVal, Option.some.injEq] at hser
          subst hser
          simp [cost, costList]
        | cons x xs2 =>
          simp only [serVal] at hser
          cases hb : serItems (x :: xs2) (k + 2) with
          | none => rw [hb] at hser; simp at hser
          | some body =>
            rw [hb] at hser
            simp only [Option.some.injEq] at hser
            subst hser
            have hsz : sizeOf (x :: xs2) ≤ n := by
              simp only [PyVal.jlist.sizeOf_spec] at hs
              omega
            have hbound := ihI x xs2 hsz (k + 2) body hb
            simp only [cost]
            simp only [List.length_append, List.length_cons, List.length_singleton]
            omega
      | jdict es =>
        cases es with
        | nil =>
          simp only [serVal, Option.some.injEq] at hser
          subst hser
          simp [cost, costEntries]
        | cons e es2 =>
          simp only [serVal] at hser
          cases hb : serEntries (e :: es2) (k + 2) with
          | none => rw [hb] at hser; simp at hser
          | some body =>
            rw [hb] at hser
            simp only [Option.some.injEq] at hser
            subst hser
            have hsz : sizeOf (e :: es2) ≤ n := by
              simp only [PyVal.jdict.sizeOf_spec] at hs
              omega
            have hbound := ihE e es2 hsz (k + 2) body hb
            simp only [cost]
            simp only [List.length_append, List.length_cons, List.length_singleton]
            omega
      | other tag =>
        simp only [serVal] at hser
        cases hser
    · intro x xs hs k s hser
      cases xs with
      | nil =>
        simp only [serItems] at hser
        cases hsx : serVal x k with
        | none => rw [hsx] at hser; simp at hser
        | some sx =>
          rw [hsx] at hser
          simp only [Option.some.injEq] at hser
          subst hser
          have hszx : sizeOf x ≤ n := by
            simp only [List.cons.sizeOf_spec] at hs
            omega
          have hbound := ihV x hszx k sx hsx
          simp only [costList]
          simp only [List.length_append]
          omega
      | cons y ys =>
        simp only [serItems] at hser
        cases hsx : serVal x k with
        | none => rw [hsx] at hser; simp at hser
        | some sx =>
          cases hrest : serItems (y :: ys) k with
          | none => rw [hsx, hrest] at hser; simp at hser
          | some srest =>
            rw [hsx, hrest] at hser
            simp only [Option.some.injEq] at hser
            subst hser
            have hszx : sizeOf x ≤ n := by
              simp only [List.cons.sizeOf_spec] at hs
              omega
            have hszr : sizeOf (y :: ys) ≤ n := by
              simp only [List.cons.sizeOf_spec] at hs ⊢
              omega
            have hb1 := ihV x hszx k sx hsx
            have hb2 := ihI y ys hszr k srest hrest
            simp only [costList] at hb2 ⊢
            simp only [List.length_append, List.length_cons]
            omega
    · intro e es hs k s hser
      obtain ⟨key, v⟩ := e
      cases es with
      | nil =>
        simp only [serEntries] at hser
        cases hsv : serVal v k with
        | none => rw [hsv] at hser; simp at hser
        | some sv =>
          rw [hsv] at hser
          simp only [Option.some.injEq] at hser
          subst hser
          have hszv : sizeOf v ≤ n := by
            simp only [List.cons.sizeOf_spec, Prod.mk.sizeOf_spec] at hs
            omega
          have hbound := ihV v hszv k sv hsv
          simp only [costEntries]
          simp only [List.length_append, List.length_cons]
          omega
      | cons e2 es2 =>
        simp only [serEntries] at hser
        cases hsv : serVal v k with
        | none => rw [hsv] at hser; simp at hser
        | some sv =>
          cases hrest : serEntries (e2 :: es2) k with
          | none => rw [hsv, hrest] at hser; simp at hser
          | some srest =>
            rw [hsv, hrest] at hser
            simp only [Option.some.injEq] at hser
            subst hser
            have hszv : sizeOf v ≤ n := by
              simp only [List.cons.sizeOf_spec, Prod.mk.sizeOf_spec] at hs
              omega
            have hszr : sizeOf (e2 :: es2) ≤ n := by
              simp only [List.cons.sizeOf_spec, Prod.mk.sizeOf_spec] at hs ⊢
              omega
            have hb1 := ihV v hszv k sv hsv
            have hb2 := ihE e2 es2 hszr k srest hrest
            simp only [costEntries] at hb2 ⊢
            simp only [List.length_append, List.length_cons]
            omega

theorem cost_le_len (v : PyVal) (k : Nat) (s : List Char) (h : serVal v k = some s) :
    cost v ≤ s.length :=
  (cost_le_len_aux (sizeOf v)).1 v le_rfl k s h

/-! ## Key sorting: preservation and equivalence up to entry order -/

theorem noOtherEntries_iff (l : List (String × PyVal)) :
    noOtherEntries l = true ↔ ∀ p ∈ l, noOther p.2 = true := by
  induction l with
  | nil => simp [noOtherEntries]
  | cons p l ih =>
    obtain ⟨a, b⟩ := p
    rw [noOtherEntries, Bool.and_eq_true, ih]
    constructor
    · rintro ⟨h1, h2⟩ p hp
      rcases List.mem_cons.mp hp with rfl | hp2
      · exact h1
      · exact h2 p hp2
    · intro h
      exact ⟨h (a, b) (List.mem_cons_self _ _),
        fun p hp => h p (List.mem_cons_of_mem _ hp)⟩

theorem noOtherEntries_perm {l1 l2 : List (String × PyVal)} (hp : l1.Perm l2) :
    noOtherEntries l1 = noOtherEntries l2 := by
  by_cases hb : noOtherEntries l2 = true
  · rw [hb]
    exact (noOtherEntries_iff l1).mpr
      fun p hm => (noOtherEntries_iff l2).mp hb p (hp.mem_iff.mp hm)
  · have hb2 : noOtherEntries l2 = false := Bool.eq_false_iff.mpr hb
    rw [hb2, Bool.eq_false_iff]
    intro h1
    exact hb ((noOtherEntries_iff l2).mpr
      fun p hm => (noOtherEntries_iff l1).mp h1 p (hp.mem_iff.mpr hm))

theorem sortKeysList_eq_map (xs : List PyVal) :
    sortKeysList xs = xs.map sortKeysRec := by
  induction xs with
  | nil => rfl
  | cons x xs ih => simp [sortKeysList, ih]

theorem sortKeysEntries_eq_map (es : List (String × PyVal)) :
    sortKeysEntries es = es.map (fun p => (p.1, sortKeysRec p.2)) := by
  induction es with
  | nil => rfl
  | cons e es ih =>
    obtain ⟨a, b⟩ := e
    simp [sortKeysEntries, ih]

theorem noOther_sortKeysRec_aux (n : Nat) :
    (∀ v : PyVal, sizeOf v ≤ n → noOther (sortKeysRec v) = noOther v)
    ∧ (∀ xs : List PyVal, sizeOf xs ≤ n → noOtherList (sortKeysList xs) = noOtherList xs)
    ∧ (∀ es : List (String × PyVal), sizeOf es ≤ n →
        noOtherEntries (sortKeysEntries es) = noOtherEntries es) := by
  induction n with
  | zero =>
    refine ⟨?_, ?_, ?_⟩
    · intro v hs
      cases v <;> simp_all
    · intro xs hs
      cases xs <;> simp_all
    · intro es hs
      cases es <;> simp_all
  | succ n ih =>
    obtain ⟨ihV, ihL, ihE⟩ := ih
    refine ⟨?_, ?_, ?_⟩
    · intro v hs
      cases v with
      | jnull => rfl
      | jbool b => rfl
      | jint i => rfl
      | jstr s0 => rfl
      | jlist xs =>
        have hsz : sizeOf xs ≤ n := by
          simp only [PyVal.jlist.sizeOf_spec] at hs
          omega
        simp only [sortKeysRec, noOther]
        exact ihL xs hsz
      | jdict es =>
        have hsz : sizeOf es ≤ n := by
          simp only [PyVal.jdict.sizeOf_spec] at hs
          omega
        simp only [sortKeysRec, noOther]
        rw [noOtherEntries_perm (List.mergeSort_perm (sortKeysEntries es) entryLeb)]
        exact ihE es hsz
      | other tag => rfl
    · intro xs hs
      cases xs with
      | nil => rfl
      | cons x xs2 =>
        have hszx : sizeOf x ≤ n := by
          simp only [List.cons.sizeOf_spec] at hs
          omega
        have hszr : sizeOf xs2 ≤ n := by
          simp only [List.cons.sizeOf_spec] at hs
          omega
        simp only [sortKeysList, noOtherList]
        rw [ihV x hszx, ihL xs2 hszr]
    · intro es hs
      cases es with
      | nil => rfl
      | cons e es2 =>
        obtain ⟨key, v⟩ := e
        have hszv : sizeOf v ≤ n := by
          simp only [List.cons.sizeOf_spec, Prod.mk.sizeOf_spec] at hs
          omega
        have hszr : sizeOf es2 ≤ n := by
          simp only [List.cons.sizeOf_spec, Prod.mk.sizeOf_spec] at hs
          omega
        simp only [sortKeysEntries, noOtherEntries]
        rw [ihV v hszv, ihE es2 hszr]

theorem noOther_sortKeysRec (v : PyVal) :
    noOther (sortKeysRec v) = noOther v :=
  (noOther_sortKeysRec_aux (sizeOf v)).1 v le_rfl

theorem prod_snd_sizeOf_lt (p : String × PyVal) : sizeOf p.2 < sizeOf p := by
  obtain ⟨a, b⟩ := p
  simp only [Prod.mk.sizeOf_spec]
  omega

theorem jequiv_refl_aux (n : Nat) : ∀ v : PyVal, sizeOf v ≤ n → JEquiv v v := by
  induction n with
  | zero =>
    intro v hs
    exact absurd hs (by cases v <;> simp)
  | succ n ih =>
    intro v hs
    cases v with
    | jnull => exact .jnull
    | jbool b => exact .jbool b
    | jint i => exact .jint i
    | jstr s0 => exact .jstr s0
    | jlist xs =>
      refine JEquiv.jlist xs xs rfl ?_
      intro i h1 h2
      have hmem := List.get_mem xs i h1
      have hlt := List.sizeOf_lt_of_mem hmem
      have hsz : sizeOf (xs.get ⟨i, h1⟩) ≤ n := by
        simp only [PyVal.jlist.sizeOf_spec] at hs
        omega
      exact ih _ hsz
    | jdict es =>
      refine JEquiv.jdict es es es rfl (fun i h1 h2 => rfl) ?_ (List.Perm.refl es)
      intro i h1 h2
      have hmem := List.get_mem es i h1
      have hlt := List.sizeOf_lt_of_mem hmem
      have hlt2 := prod_snd_sizeOf_lt (es.get ⟨i, h1⟩)
      have hsz : sizeOf (es.get ⟨i, h1⟩).2 ≤ n := by
        simp only [PyVal.jdict.sizeOf_spec] at hs
        omega
      exact ih _ hsz
    | other tag => exact .other tag

theorem jequiv_refl (v : PyVal) : JEquiv v v :=
  jequiv_refl_aux (sizeOf v) v le_rfl

theorem sortKeysEntries_get (es : List (String × PyVal)) : ∀ (i : Nat)
    (h1 : i < es.length) (h2 : i < (sortKeysEntries es).length),
    (sortKeysEntries es).get ⟨i, h2⟩
      = ((es.get ⟨i, h1⟩).1, sortKeysRec (es.get ⟨i, h1⟩).2) := by
  induction es with
  | nil =>
    intro i h1 h2
    exact absurd h1 (by simp)
  | cons e es ih =>
    obtain ⟨a, b⟩ := e
    intro i h1 h2
    cases i with
    | zero => rfl
    | succ j =>
      exact ih j (by simpa using h1) (by simpa [sortKeysEntries] using h2)

theorem jequiv_sortKeysRec_aux (n : Nat) :
    ∀ v : PyVal, sizeOf v ≤ n → JEquiv v (sortKeysRec v) := by
  induction n with
  | zero =>
    intro v hs
    exact absurd hs (by cases v <;> simp)
  | succ n ih =>
    intro v hs
    cases v with
    | jnull => exact .jnull
    | jbool b => exact .jbool b
    | jint i => exact .jint i
    | jstr s0 => exact .jstr s0
    | jlist xs =>
      have heq : sortKeysRec (.jlist xs) = .jlist (xs.map sortKeysRec) := by
        simp [sortKeysRec, sortKeysList_eq_map]
      rw [heq]
      refine JEquiv.jlist xs (xs.map sortKeysRec) (by simp) ?_
      intro i h1 h2
      have hmem := List.get_mem xs i h1
      have hlt := List.sizeOf_lt_of_mem hmem
      have hsz : sizeOf (xs.get ⟨i, h1⟩) ≤ n := by
        simp only [PyVal.jlist.sizeOf_spec] at hs
        omega
      have hget : (xs.map sortKeysRec).get ⟨i, h2⟩ = sortKeysRec (xs.get ⟨i, h1⟩) := by
        simp [List.get_eq_getElem, List.getElem_map]
      rw [hget]
      exact ih _ hsz
    | jdict es =>
      have heq : sortKeysRec (.jdict es)
          = .jdict ((sortKeysEntries es).mergeSort entryLeb) := by
        simp [sortKeysRec]
      rw [heq]
      refine JEquiv.jdict es (sortKeysEntries es) ((sortKeysEntries es).mergeSort entryLeb)
        (by simp [sortKeysEntries_eq_map]) ?_ ?_
        ((List.mergeSort_perm (sortKeysEntries es) entryLeb).symm)
      · intro i h1 h2
        rw [sortKeysEntries_get es i h1 h2]
      · intro i h1 h2
        have hmem := List.get_mem es i h1
        have hlt := List.sizeOf_lt_of_mem hmem
        have hlt2 := prod_snd_sizeOf_lt (es.get ⟨i, h1⟩)
        have hsz : sizeOf (es.get ⟨i, h1⟩).2 ≤ n := by
          simp only [PyVal.jdict.sizeOf_spec] at hs
          omega
        rw [sortKeysEntries_get es i h1 h2]
        exact ih _ hsz
    | other tag => exact .other tag

theorem jequiv_sortKeysRec (v : PyVal) : JEquiv v (sortKeysRec v) :=
  jequiv_sortKeysRec_aux (sizeOf v) v le_rfl

theorem lookupFile_setFile_self (files : List (String × String)) (p c : String) :
    lookupFile (setFile files p c) p = some c := by
  induction files with
  | nil => simp [setFile, lookupFile]
  | cons hd tl ih =>
    obtain ⟨q, d⟩ := hd
    by_cases hq : q = p
    · subst hq
      simp [setFile, lookupFile]
    · simp [setFile, lookupFile, hq, ih]

/-- C6: for every JSON-representable structure (no non-serializable object
inside), dumping it via `dump_structure` to a valid path and filename writes
the `json.dumps` text (2-space indent, non-ASCII literal) at the joined
destination, overwriting any existing file there; re-parsing the written
text as JSON yields exactly the input structure when `sort_keys` is off, and
a structure equal to the input up to mapping-key ordering (`JEquiv`) when
`sort_keys` is requested. -/
theorem dump_structure_roundtrip (fs : FS) (struct : PyVal) (path filename : String)
    (sk : Bool)
    (hp : validate_filepath path = true)
    (hd : fs.isdir path = true)
    (hf : validate_filename filename = true)
    (hno : noOther struct = true) :
    ∃ s : String,
      json_dumps struct sk = .ok s
      ∧ dump_structure fs struct path filename sk
          = (fs.writeFile (joinPath path filename) s, none)
      ∧ lookupFile (dump_structure fs struct path filename sk).1.files
          (joinPath path filename) = some s
      ∧ json_loads s = some (if sk then sortKeysRec struct else struct)
      ∧ JEquiv struct (if sk then sortKeysRec struct else struct)
      ∧ (sk = false → json_loads s = some struct) := by
  have hnow : noOther (if sk then sortKeysRec struct else struct) = true := by
    cases sk
    · simpa using hno
    · simpa [noOther_sortKeysRec] using hno
  obtain ⟨cs, hser⟩ := serVal_total (if sk then sortKeysRec struct else struct) 0 hnow
  have hdumps : json_dumps struct sk = .ok (String.mk cs) := by
    rw [json_dumps, hser]
  have hloads : json_loads (String.mk cs)
      = some (if sk then sortKeysRec struct else struct) := by
    have hcost : cost (if sk then sortKeysRec struct else struct) ≤ cs.length + 1 := by
      have := cost_le_len _ 0 cs hser
      omega
    have hL1 := (parse_ser_master (cs.length + 1)).1 _ 0 cs [] hser hcost rfl
    rw [List.append_nil] at hL1
    rw [json_loads]
    have hlen : (String.mk cs).length = cs.length := rfl
    have htl : (String.mk cs).toList = cs := rfl
    rw [hlen, htl, hL1]
    rfl
  have hdump : dump_structure fs struct path filename sk
      = (fs.writeFile (joinPath path filename) (String.mk cs), none) := by
    simp [dump_structure, hp, hd, hf, hdumps]
  refine ⟨String.mk cs, hdumps, hdump, ?_, hloads, ?_, ?_⟩
  · rw [hdump]
    exact lookupFile_setFile_self fs.files _ _
  · cases sk
    · simpa using jequiv_refl struct
    · simpa using jequiv_sortKeysRec struct
  · intro hskf
    subst hskf
    simpa using hloads

theorem dump_structure_roundtrip_witness :
    validate_filepath "/tmp" = true
    ∧ (⟨[("/tmp/f.json", "old")], ["/tmp"], []⟩ : FS).isdir "/tmp" = true
    ∧ validate_filename "f.json" = true
    ∧ noOther (.jdict [("a", .jint 1)]) = true
    ∧ (∃ s : String,
        json_dumps (.jdict [("a", .jint 1)]) false = .ok s
        ∧ dump_structure ⟨[("/tmp/f.json", "old")], ["/tmp"], []⟩
            (.jdict [("a", .jint 1)]) "/tmp" "f.json" false
            = ((⟨[("/tmp/f.json", "old")], ["/tmp"], []⟩ : FS).writeFile
                (joinPath "/tmp" "f.json") s, none)
        ∧ lookupFile (dump_structure ⟨[("/tmp/f.json", "old")], ["/tmp"], []⟩
              (.jdict [("a", .jint 1)]) "/tmp" "f.json" false).1.files
            (joinPath "/tmp" "f.json") = some s
        ∧ json_loads s = some (if false then sortKeysRec (.jdict [("a", .jint 1)])
            else .jdict [("a", .jint 1)])
        ∧ JEquiv (.jdict [("a", .jint 1)]) (if false then sortKeysRec (.jdict [("a", .jint 1)])
            else .jdict [("a", .jint 1)])
        ∧ (false = false → json_loads s = some (.jdict [("a", .jint 1)]))) :=
  ⟨by decide, by decide, by decide, by decide,
    dump_structure_roundtrip ⟨[("/tmp/f.json", "old")], ["/tmp"], []⟩
      (.jdict [("a", .jint 1)]) "/tmp" "f.json" false
      (by decide) (by decide) (by decide) (by decide)⟩

/-- C10: if `struct` is not JSON-serializable, `json.dumps` raises a
`TypeError` that propagates out of `dump_structure` after the target
directory may already have been created (directory creation precedes
serialization, and is not rolled back), and no output file is written; so
the no-exception guarantee holds only for path/filename validation failures,
not serialization failures. -/
theorem dump_structure_typeerror (fs : FS) (struct : PyVal) (path filename : String)
    (sk : Bool)
    (hp : validate_filepath path = true)
    (hoth : noOther struct = false) :
    (fs.isdir path = true →
      dump_structure fs struct path filename sk = (fs, some .typeError))
    ∧ (fs.isdir path = false → fs.dirs.contains (dirname path) = true →
      dump_structure fs struct path filename sk
        = ({ fs with dirs := path :: fs.dirs }, some .typeError))
    ∧ (dump_structure fs struct path filename sk).1.files = fs.files := by
  have hno2 : noOther (if sk then sortKeysRec struct else struct) = false := by
    cases sk
    · simpa using hoth
    · simpa [noOther_sortKeysRec] using hoth
  have hdumps : json_dumps struct sk = .error .typeError := by
    rw [json_dumps, serVal_none _ 0 hno2]
  have h1 : fs.isdir path = true →
      dump_structure fs struct path filename sk = (fs, some .typeError) := by
    intro hd
    simp [dump_structure, hp, hd, hdumps]
  have h2 : fs.isdir path = false → fs.dirs.contains (dirname path) = true →
      dump_structure fs struct path filename sk
        = ({ fs with dirs := path :: fs.dirs }, some .typeError) := by
    intro hd hpar
    have hpar2 : dirname path ∈ fs.dirs := by simpa using hpar
    simp [dump_structure, hp, hd, FS.mkdir, hpar2, hdumps]
  refine ⟨h1, h2, ?_⟩
  by_cases hd : fs.isdir path = true
  · rw [h1 hd]
  · have hd2 : fs.isdir path = false := Bool.eq_false_iff.mpr hd
    by_cases hpar : fs.dirs.contains (dirname path) = true
    · rw [h2 hd2 hpar]
    · have hpar2 : fs.dirs.contains (dirname path) = false := Bool.eq_false_iff.mpr hpar
      have hpar3 : ¬(dirname path ∈ fs.dirs) := by simpa using hpar2
      simp [dump_structure, hp, hd2, FS.mkdir, hpar3]

theorem dump_structure_typeerror_witness :
    validate_filepath "/tmp" = true
    ∧ noOther (.other "set") = false
    ∧ (((⟨[], ["/tmp"], []⟩ : FS).isdir "/tmp" = true →
        dump_structure ⟨[], ["/tmp"], []⟩ (.other "set") "/tmp" "f.json" false
          = (⟨[], ["/tmp"], []⟩, some .typeError))
      ∧ ((⟨[], ["/tmp"], []⟩ : FS).isdir "/tmp" = false →
          (⟨[], ["/tmp"], []⟩ : FS).dirs.contains (dirname "/tmp") = true →
        dump_structure ⟨[], ["/tmp"], []⟩ (.other "set") "/tmp" "f.json" false
          = ({ files := [], dirs := "/tmp" :: ["/tmp"], logs := [] }, some .typeError))
      ∧ (dump_structure ⟨[], ["/tmp"], []⟩ (.other "set") "/tmp" "f.json" false).1.files
          = ([] : List (String × String))) :=
  ⟨by decide, by decide,
    dump_structure_typeerror ⟨[], ["/tmp"], []⟩ (.other "set") "/tmp" "f.json" false
      (by decide) (by decide)⟩

end MyEnv
